import Mathlib

/-!
Verification of the NFA core of `automata-scripts` (files `src/automaton.ts`
and `src/nfa.ts`).

Shallow embedding conventions:
* A JavaScript `State` object is one slot of an arena (`List StateData`);
  a state reference is the slot's index (object identity = index).  The
  `label` field and the ordered `next` edge list are stored in the slot.
* An edge symbol is `Option String`: `some s` is a JS string, `none` is the
  JS value `undefined` (which the code can store when a malformed `text`
  node is missing its field).
* The mutable heap of a build is a `BuildState`: the arena together with
  the `label` counter of `NFA.build`.  Allocating `new State(++label)`
  appends a slot; `addNext` appends to a slot's edge list.
* Fallible JS evaluation is `Except String`; dereferencing `undefined`
  becomes `.error`.  A `switch` falling through (returning `undefined`)
  becomes `.ok none`.
-/

/-- An outgoing edge of a state: the symbol (possibly the JS `undefined`,
modelled `none`) and the index of the target state (field `to` of `Edge` in
`src/automaton.ts`; `to` is a Lean keyword, hence `tgt`). -/
structure Edge where
  symbol : Option String
  tgt : Nat
deriving DecidableEq, Repr

/-- One `State` object of `src/automaton.ts`: its integer `label` and its
ordered list `next` of outgoing edges. -/
structure StateData where
  label : Nat
  next : List Edge
deriving DecidableEq, Repr

/-- The heap of allocated states; a state reference is an index. -/
abbrev Arena := List StateData

/-- The label of the state at index `j` (`0` when out of range; real runs
never go out of range). -/
def labelAt (a : Arena) (j : Nat) : Nat :=
  ((a.get? j).map StateData.label).getD 0

/-- The edge list of the state at index `j` (`[]` when out of range). -/
def nextAt (a : Arena) (j : Nat) : List Edge :=
  ((a.get? j).map StateData.next).getD []

/-- Total number of transitions in the arena. -/
def totalEdges (a : Arena) : Nat :=
  (a.map (fun st => st.next.length)).sum

/-- Replace the element at index `i` by `f` of it (no-op out of range). -/
def modifyIdx (l : List α) (i : Nat) (f : α → α) : List α :=
  match l, i with
  | [], _ => []
  | x :: xs, 0 => f x :: xs
  | x :: xs, n + 1 => x :: modifyIdx xs n f

/-- Modelled from the spec: the syntax-tree node type `SyntaxTreeNode` is
declared in `src/regex.ts`, which is not part of the source snapshot; only
the fields the builder reads are modelled, following the spec (§6): a kind
discriminator `type`, a literal `text` for `text` nodes, an ordered list
`parts` for `or`/`cat` nodes and a single `sub` for the repetition kinds.
`text` and `sub` are optional so that the malformed nodes of the spec's
error taxonomy (§7) are representable. -/
inductive SyntaxTreeNode where
  | mk (type : String) (text : Option String)
      (parts : List SyntaxTreeNode) (sub : Option SyntaxTreeNode)

/-- The `type` discriminator of a node. -/
def SyntaxTreeNode.type : SyntaxTreeNode → String
  | .mk t _ _ _ => t

/-- The `text` field of a node. -/
def SyntaxTreeNode.text : SyntaxTreeNode → Option String
  | .mk _ x _ _ => x

/-- The `parts` field of a node. -/
def SyntaxTreeNode.parts : SyntaxTreeNode → List SyntaxTreeNode
  | .mk _ _ p _ => p

/-- The `sub` field of a node. -/
def SyntaxTreeNode.sub : SyntaxTreeNode → Option SyntaxTreeNode
  | .mk _ _ _ s => s

/-- The epsilon marker used by `src/nfa.ts`. -/
def epsSym : Option String := some "ϵ"

/-- The mutable state of one `NFA.build` run: the arena of allocated
states and the `label` counter. -/
structure BuildState where
  arena : Arena
  label : Nat
deriving DecidableEq, Repr

/-- `new State(++label)`: increment the counter, allocate a fresh state
carrying it, return its index. -/
def newState (s : BuildState) : Nat × BuildState :=
  (s.arena.length, ⟨s.arena ++ [⟨s.label + 1, []⟩], s.label + 1⟩)

/-- `src.addNext(symbol, target)`: append an edge to the state at index
`src`. -/
def addNextB (s : BuildState) (src : Nat) (sym : Option String) (tgt : Nat) :
    BuildState :=
  ⟨modifyIdx s.arena src (fun st => ⟨st.label, st.next ++ [⟨sym, tgt⟩]⟩), s.label⟩

/-- `src.addNext(symbol, target)` where `src` may be the JS `undefined`
(a recursive call that fell through the `switch`): dereferencing
`undefined` throws. -/
def jsAddNext (src : Option Nat) (sym : Option String) (tgt : Nat)
    (s : BuildState) : Except String BuildState :=
  match src with
  | none => .error "TypeError: cannot read addNext of undefined"
  | some i => .ok (addNextB s i sym tgt)

/-- Sequencing of fallible JS evaluation: propagate a thrown error,
otherwise continue with the result (`match e with ...` on each call site
of the original control flow). -/
def exBind (e : Except String α) (k : α → Except String β) :
    Except String β :=
  match e with
  | .error m => .error m
  | .ok x => k x

theorem exBind_ok (x : α) (k : α → Except String β) :
    exBind (.ok x) k = k x := rfl

theorem exBind_error (m : String) (k : α → Except String β) :
    exBind (.error m) k = .error m := rfl

/-- The `for (let state of last_states)` loop closing the `or` case: an
epsilon edge from every collected accept state to the shared accept
state; a collected `undefined` throws. -/
def addAll (last_states : List (Option Nat)) (accept_state : Nat)
    (s : BuildState) : Except String BuildState :=
  match last_states with
  | [] => .ok s
  | o :: rest =>
    exBind (jsAddNext o epsSym accept_state s) (fun s1 =>
      addAll rest accept_state s1)

mutual

/-- Size of a syntax tree, used to compute a provably sufficient
recursion-depth bound for one build. -/
def treeSize : SyntaxTreeNode → Nat
  | .mk _ _ ps sb =>
    1 + treeSizeL ps + (match sb with | none => 0 | some t => treeSize t + 1)

/-- Size of a parts list. -/
def treeSizeL : List SyntaxTreeNode → Nat
  | [] => 1
  | t :: ts => 1 + treeSize t + treeSizeL ts

end

/-- Bound on the recursion depth of one build.  JavaScript recursion is
bounded only by the call stack; the embedding threads an explicit bound,
set high enough by `buildFromTree` that (provably, see
`buildFromTree_no_fuel_error`) it is never exhausted, so the bound is an
artifact of the translation and not a behavior of the code. -/
def fuelMsg : String := "RECURSION LIMIT EXCEEDED"

mutual

/-- The recursive builder `generateGraph` of `NFA.build` (`src/nfa.ts`).
`initial_state` is `some` index, or `none` when the JS value flowing in is
`undefined`; the returned state is `none` exactly when the `switch` falls
through (unrecognized `type`).  The `switch` is modelled as the sequential
comparison chain it performs; `fuel` is the recursion-depth bound. -/
def generateGraph (fuel : Nat) (st_node : SyntaxTreeNode)
    (initial_state : Option Nat) (s : BuildState) :
    Except String (Option Nat × BuildState) :=
  match fuel with
  | 0 => .error fuelMsg
  | fuel + 1 =>
    match st_node with
    | .mk ty tx ps sb =>
    if ty = "empty" then
      let ns := newState s
      exBind (jsAddNext initial_state epsSym ns.1 ns.2) (fun s2 =>
        .ok (some ns.1, s2))
    else if ty = "text" then
      let letter := tx
      let ns := newState s
      exBind (jsAddNext initial_state letter ns.1 ns.2) (fun s2 =>
        .ok (some ns.1, s2))
    else if ty = "or" then
      exBind (genOr fuel ps initial_state s) (fun p =>
        let ns := newState p.2
        exBind (addAll p.1 ns.1 ns.2) (fun s3 => .ok (some ns.1, s3)))
    else if ty = "cat" then
      genCat fuel ps initial_state s
    else if ty = "star" ∨ ty = "plus" ∨ ty = "optional" then
      let ns := newState s
      exBind (jsAddNext initial_state epsSym ns.1 ns.2) (fun s2 =>
        match sb with
        | none => .error "TypeError: cannot read type of undefined"
        | some sub_node =>
          exBind (generateGraph fuel sub_node (some ns.1) s2) (fun q =>
            exBind (if ty = "star" ∨ ty = "plus" then
                jsAddNext q.1 epsSym ns.1 q.2
              else .ok q.2) (fun s4 =>
              let ns2 := newState s4
              exBind (jsAddNext q.1 epsSym ns2.1 ns2.2) (fun s6 =>
                if ty = "star" ∨ ty = "optional" then
                  exBind (jsAddNext initial_state epsSym ns2.1 s6)
                    (fun s7 => .ok (some ns2.1, s7))
                else .ok (some ns2.1, s6)))))
    else
      .ok (none, s)

/-- The `for (let part of st_node.parts)` loop of the `or` case: allocate
an entry state per part, wire `initial_state` to it by an epsilon edge,
build the part from it and collect the returned accept state (which is
`none` when the recursive call fell through). -/
def genOr (fuel : Nat) (parts : List SyntaxTreeNode)
    (initial_state : Option Nat) (s : BuildState) :
    Except String (List (Option Nat) × BuildState) :=
  match fuel with
  | 0 => .error fuelMsg
  | fuel + 1 =>
    match parts with
    | [] => .ok ([], s)
    | part :: rest =>
      let ns := newState s
      exBind (jsAddNext initial_state epsSym ns.1 ns.2) (fun s2 =>
        exBind (generateGraph fuel part (some ns.1) s2) (fun q =>
          exBind (genOr fuel rest initial_state q.2) (fun p =>
            .ok (q.1 :: p.1, p.2))))

/-- The `for (let part of st_node.parts)` loop of the `cat` case: thread
the previous accept state as the next initial state. -/
def genCat (fuel : Nat) (parts : List SyntaxTreeNode)
    (prev_state : Option Nat) (s : BuildState) :
    Except String (Option Nat × BuildState) :=
  match fuel with
  | 0 => .error fuelMsg
  | fuel + 1 =>
    match parts with
    | [] => .ok (prev_state, s)
    | part :: rest =>
      exBind (generateGraph fuel part prev_state s)
        (fun q => genCat fuel rest q.1 q.2)

end

/-- `NFA.build` after the external `parseRegex` call: allocate the global
initial state with label `0`, run `generateGraph` on the tree root from
it, return the `(initial, accept)` pair together with the final heap. -/
def buildFromTree (st : SyntaxTreeNode) :
    Except String ((Nat × Option Nat) × BuildState) :=
  let s0 : BuildState := ⟨[⟨0, []⟩], 0⟩
  exBind (generateGraph (treeSize st + 1) st (some 0) s0)
    (fun q => .ok ((0, q.1), q.2))

/-! ## The closure operation `NFA.enclosure`

The JS depth-first search carries a visited set (`reacheable_states`,
keyed by object identity, i.e. by arena index) and recurses through every
edge whose symbol equals the requested one.  Termination is by the number
of in-range states not yet visited, so the returned list is bundled with
the fact that the visited list only grows. -/

/-- Number of arena indices not yet in the visited list: the termination
measure of the depth-first search. -/
def unvisited (a : Arena) (v : List Nat) : Nat :=
  ((List.range a.length).filter (fun x => decide (x ∉ v))).length

theorem length_filter_mono {α : Type} {p q : α → Bool} (l : List α)
    (h : ∀ x, p x = true → q x = true) :
    (l.filter p).length ≤ (l.filter q).length := by
  induction l with
  | nil => simp
  | cons x xs ih =>
    simp only [List.filter_cons]
    by_cases hp : p x = true
    · rw [if_pos hp, if_pos (h x hp)]
      simpa using ih
    · rw [if_neg hp]
      by_cases hq : q x = true
      · rw [if_pos hq]
        exact Nat.le_trans ih (by simp)
      · rw [if_neg hq]
        exact ih

theorem unvisited_le_of_grow (a : Arena) {v w : List Nat}
    (h : ∀ x, x ∈ v → x ∈ w) : unvisited a w ≤ unvisited a v := by
  refine length_filter_mono _ ?_
  intro x hx
  simp only [decide_eq_true_eq] at hx ⊢
  exact fun hv => hx (h x hv)

theorem filter_lt_of_mem {v : List Nat} {i : Nat} (l : List Nat)
    (hi : i ∈ l) (hv : i ∉ v) :
    (l.filter (fun x => decide (x ∉ v ++ [i]))).length <
      (l.filter (fun x => decide (x ∉ v))).length := by
  induction l with
  | nil => cases hi
  | cons x xs ih =>
    simp only [List.filter_cons]
    by_cases hx : x = i
    · subst hx
      rw [if_neg (by simp), if_pos (by simpa using hv)]
      have hmono : (xs.filter (fun y => decide (y ∉ v ++ [x]))).length ≤
          (xs.filter (fun y => decide (y ∉ v))).length := by
        refine length_filter_mono _ ?_
        intro y hy
        simp only [decide_eq_true_eq, List.mem_append] at hy ⊢
        exact fun h => hy (Or.inl h)
      simp only [List.length_cons]
      omega
    · have hixs : i ∈ xs := by
        rcases List.mem_cons.mp hi with h | h
        · exact absurd h.symm hx
        · exact h
      have hcond : (decide (x ∉ v ++ [i])) = (decide (x ∉ v)) := by
        refine decide_eq_decide.mpr ?_
        constructor
        · intro h hv2
          exact h (List.mem_append.mpr (Or.inl hv2))
        · intro h hmem
          rcases List.mem_append.mp hmem with h1 | h1
          · exact h h1
          · exact hx (by simpa using h1)
      rw [hcond]
      by_cases hxv2 : (decide (x ∉ v)) = true
      · simp only [if_pos hxv2, List.length_cons]
        exact Nat.succ_lt_succ (ih hixs)
      · simp only [if_neg hxv2]
        exact ih hixs

theorem unvisited_grow_lt (a : Arena) {v : List Nat} {i : Nat}
    (hlt : i < a.length) (hv : i ∉ v) :
    unvisited a (v ++ [i]) < unvisited a v :=
  filter_lt_of_mem (List.range a.length) (List.mem_range.mpr hlt) hv

mutual

/-- The inner `DFS` of `NFA.enclosure`: if the state was visited, return;
otherwise record it and recurse through each outgoing edge carrying the
requested symbol.  The result is bundled with the fact that the visited
list only grows (needed for termination). -/
def dfsState (a : Arena) (symbol : String) (v : List Nat) (i : Nat) :
    {w : List Nat // ∀ x, x ∈ v → x ∈ w} :=
  if hv : i ∈ v then ⟨v, fun _ hx => hx⟩
  else if hlt : i < a.length then
    match dfsEdges a symbol (v ++ [i]) (nextAt a i) with
    | ⟨w, hw⟩ =>
      ⟨w, fun x hx => hw x (List.mem_append.mpr (Or.inl hx))⟩
  else ⟨v ++ [i], fun x hx => List.mem_append.mpr (Or.inl hx)⟩
termination_by (unvisited a v, 0, 0)
decreasing_by
  exact Prod.Lex.left _ _ (unvisited_grow_lt a hlt hv)

/-- The `for (const edge of state.next)` loop of the `DFS`. -/
def dfsEdges (a : Arena) (symbol : String) (v : List Nat) (es : List Edge) :
    {w : List Nat // ∀ x, x ∈ v → x ∈ w} :=
  match es with
  | [] => ⟨v, fun _ hx => hx⟩
  | e :: rest =>
    if e.symbol = some symbol then
      match dfsState a symbol v e.tgt with
      | ⟨w1, hw1⟩ =>
        match dfsEdges a symbol w1 rest with
        | ⟨w2, hw2⟩ => ⟨w2, fun x hx => hw2 x (hw1 x hx)⟩
    else dfsEdges a symbol v rest
termination_by (unvisited a v, 1, es.length)
decreasing_by
  · exact Prod.Lex.right _ (Prod.Lex.left _ _ Nat.zero_lt_one)
  · rcases Nat.eq_or_lt_of_le (unvisited_le_of_grow a hw1) with heq | hlt
    · rw [heq]
      exact Prod.Lex.right _ (Prod.Lex.right _ (Nat.lt_succ_self _))
    · exact Prod.Lex.left _ _ hlt
  · exact Prod.Lex.right _ (Prod.Lex.right _ (Nat.lt_succ_self _))

end

/-- `NFA.enclosure` on an array argument: run the `DFS` from every given
state, accumulating the shared visited set; by default the closure is
over the epsilon marker. -/
def enclosure (a : Arena) (T : List Nat) (symbol : String := "ϵ") :
    List Nat :=
  T.foldl (fun v st => (dfsState a symbol v st).val) []

/-- `NFA.enclosure` on a single-state argument. -/
def enclosureOne (a : Arena) (st : Nat) (symbol : String := "ϵ") :
    List Nat :=
  (dfsState a symbol [] st).val

/-! ## Reachability semantics of the closure -/

/-- `Reach a symbol i x`: state `x` is reachable from state `i` by zero or
more transitions labeled exactly `symbol`. -/
inductive Reach (a : Arena) (symbol : String) : Nat → Nat → Prop
  | refl (i : Nat) : Reach a symbol i i
  | tail {i j : Nat} {e : Edge} (hij : Reach a symbol i j)
      (he : e ∈ nextAt a j) (hs : e.symbol = some symbol) :
      Reach a symbol i e.tgt

theorem Reach.trans {a : Arena} {symbol : String} {i j k : Nat}
    (h1 : Reach a symbol i j) (h2 : Reach a symbol j k) :
    Reach a symbol i k := by
  induction h2 with
  | refl => exact h1
  | tail _ he hs ih => exact .tail ih he hs

/-- What one `DFS` call guarantees: the visited list grows by a block of
fresh states, all reachable from `i`; no duplicates are introduced; `i`
ends up visited; and every state that this call visited has all its
matching successors visited. -/
def DfsStateOk (a : Arena) (symbol : String) (v : List Nat) (i : Nat)
    (w : List Nat) : Prop :=
  (∃ fresh, w = v ++ fresh ∧ (∀ x, x ∈ fresh → x ∉ v) ∧
    (∀ x, x ∈ fresh → Reach a symbol i x)) ∧
  (v.Nodup → w.Nodup) ∧
  i ∈ w ∧
  (∀ j, j ∈ w → j ∉ v → ∀ e, e ∈ nextAt a j → e.symbol = some symbol →
    e.tgt ∈ w)

/-- What the edge loop of the `DFS` guarantees. -/
def DfsEdgesOk (a : Arena) (symbol : String) (v : List Nat)
    (es : List Edge) (w : List Nat) : Prop :=
  (∃ fresh, w = v ++ fresh ∧ (∀ x, x ∈ fresh → x ∉ v) ∧
    (∀ x, x ∈ fresh → ∃ e, e ∈ es ∧ e.symbol = some symbol ∧
      Reach a symbol e.tgt x)) ∧
  (v.Nodup → w.Nodup) ∧
  (∀ e, e ∈ es → e.symbol = some symbol → e.tgt ∈ w) ∧
  (∀ j, j ∈ w → j ∉ v → ∀ e, e ∈ nextAt a j → e.symbol = some symbol →
    e.tgt ∈ w)

mutual

theorem dfsState_ok (a : Arena) (symbol : String) (v : List Nat) (i : Nat) :
    DfsStateOk a symbol v i (dfsState a symbol v i).val := by
  rw [dfsState]
  by_cases hv : i ∈ v
  · simp only [dif_pos hv]
    refine ⟨⟨[], by simp, by simp, by simp⟩, fun h => h, hv, ?_⟩
    intro j hj hnj
    exact absurd hj hnj
  · by_cases hlt : i < a.length
    · simp only [dif_neg hv, dif_pos hlt]
      have hrec := dfsEdges_ok a symbol (v ++ [i]) (nextAt a i)
      rcases hr : dfsEdges a symbol (v ++ [i]) (nextAt a i) with ⟨w, hgrow⟩
      rw [hr] at hrec
      simp only at hrec ⊢
      rcases hrec with ⟨⟨fresh2, hw, hdisj, hreach⟩, hnd, hsucc, hclosed⟩
      refine ⟨⟨i :: fresh2, ?_, ?_, ?_⟩, ?_, ?_, ?_⟩
      · rw [hw, List.append_assoc]
        rfl
      · intro x hx
        rcases List.mem_cons.mp hx with h | h
        · subst h; exact hv
        · intro hxv
          exact hdisj x h (List.mem_append.mpr (Or.inl hxv))
      · intro x hx
        rcases List.mem_cons.mp hx with h | h
        · subst h; exact Reach.refl _
        · rcases hreach x h with ⟨e, he, hes, hrx⟩
          exact (Reach.tail (Reach.refl i) he hes).trans hrx
      · intro hvnd
        refine hnd ?_
        rw [List.nodup_append]
        exact ⟨hvnd, List.nodup_singleton i, by simpa using hv⟩
      · exact hgrow i (List.mem_append.mpr (Or.inr (List.mem_singleton.mpr rfl)))
      · intro j hj hnj e he hes
        by_cases hji : j = i
        · subst hji
          exact hsucc e he hes
        · refine hclosed j hj ?_ e he hes
          intro hmem
          rcases List.mem_append.mp hmem with h | h
          · exact hnj h
          · exact hji (List.mem_singleton.mp h)
    · simp only [dif_neg hv, dif_neg hlt]
      refine ⟨⟨[i], by simp, ?_, ?_⟩, ?_, ?_, ?_⟩
      · intro x hx
        rw [List.mem_singleton.mp hx]
        exact hv
      · intro x hx
        rw [List.mem_singleton.mp hx]
        exact Reach.refl i
      · intro hvnd
        rw [List.nodup_append]
        exact ⟨hvnd, List.nodup_singleton i, by simpa using hv⟩
      · exact List.mem_append.mpr (Or.inr (List.mem_singleton.mpr rfl))
      · intro j hj hnj e he hes
        have hji : j = i := by
          rcases List.mem_append.mp hj with h | h
          · exact absurd h hnj
          · exact List.mem_singleton.mp h
        subst hji
        have : nextAt a j = [] := by
          unfold nextAt
          rw [List.get?_eq_none.mpr (Nat.le_of_not_lt hlt)]
          rfl
        rw [this] at he
        cases he
termination_by (unvisited a v, 0, 0)
decreasing_by
  exact Prod.Lex.left _ _ (unvisited_grow_lt a hlt hv)

theorem dfsEdges_ok (a : Arena) (symbol : String) (v : List Nat)
    (es : List Edge) :
    DfsEdgesOk a symbol v es (dfsEdges a symbol v es).val := by
  cases es with
  | nil =>
    rw [dfsEdges]
    refine ⟨⟨[], by simp, by simp, by simp⟩, fun h => h, by simp, ?_⟩
    intro j hj hnj
    exact absurd hj hnj
  | cons e rest =>
    rw [dfsEdges]
    by_cases hsym : e.symbol = some symbol
    · simp only [if_pos hsym]
      have hrec1 := dfsState_ok a symbol v e.tgt
      rcases h1 : dfsState a symbol v e.tgt with ⟨w1, hg1⟩
      rw [h1] at hrec1
      simp only at hrec1
      have hrec2 := dfsEdges_ok a symbol w1 rest
      rcases h2 : dfsEdges a symbol w1 rest with ⟨w2, hg2⟩
      rw [h2] at hrec2
      simp only at hrec2 ⊢
      rcases hrec1 with ⟨⟨f1, hw1, hd1, hr1⟩, hnd1, hmem1, hcl1⟩
      rcases hrec2 with ⟨⟨f2, hw2, hd2, hr2⟩, hnd2, hsucc2, hcl2⟩
      refine ⟨⟨f1 ++ f2, ?_, ?_, ?_⟩, ?_, ?_, ?_⟩
      · rw [hw2, hw1, List.append_assoc]
      · intro x hx
        rcases List.mem_append.mp hx with h | h
        · exact hd1 x h
        · intro hxv
          exact hd2 x h (by rw [hw1]; exact List.mem_append.mpr (Or.inl hxv))
      · intro x hx
        rcases List.mem_append.mp hx with h | h
        · exact ⟨e, List.mem_cons_self e rest, hsym, hr1 x h⟩
        · rcases hr2 x h with ⟨e2, he2, hes2, hrx⟩
          exact ⟨e2, List.mem_cons_of_mem e he2, hes2, hrx⟩
      · intro hvnd
        exact hnd2 (hnd1 hvnd)
      · intro e2 he2 hes2
        rcases List.mem_cons.mp he2 with h | h
        · subst h
          exact hg2 e2.tgt hmem1
        · exact hsucc2 e2 h hes2
      · intro j hj hnj e2 he2 hes2
        by_cases hjw1 : j ∈ w1
        · exact hg2 e2.tgt (hcl1 j hjw1 hnj e2 he2 hes2)
        · exact hcl2 j hj hjw1 e2 he2 hes2
    · simp only [if_neg hsym]
      have hrec := dfsEdges_ok a symbol v rest
      rcases h2 : dfsEdges a symbol v rest with ⟨w2, hg2⟩
      rw [h2] at hrec
      simp only at hrec ⊢
      rcases hrec with ⟨⟨f2, hw2, hd2, hr2⟩, hnd2, hsucc2, hcl2⟩
      refine ⟨⟨f2, hw2, hd2, ?_⟩, hnd2, ?_, hcl2⟩
      · intro x hx
        rcases hr2 x hx with ⟨e2, he2, hes2, hrx⟩
        exact ⟨e2, List.mem_cons_of_mem e he2, hes2, hrx⟩
      · intro e2 he2 hes2
        rcases List.mem_cons.mp he2 with h | h
        · subst h
          exact absurd hes2 hsym
        · exact hsucc2 e2 h hes2
termination_by (unvisited a v, 1, es.length)
decreasing_by
  · exact Prod.Lex.right _ (Prod.Lex.left _ _ Nat.zero_lt_one)
  · rcases Nat.eq_or_lt_of_le (unvisited_le_of_grow a hg1) with heq | hlt
    · rw [heq]
      exact Prod.Lex.right _ (Prod.Lex.right _ (Nat.lt_succ_self _))
    · exact Prod.Lex.left _ _ hlt
  · exact Prod.Lex.right _ (Prod.Lex.right _ (Nat.lt_succ_self _))

end

theorem foldl_dfs_grows (a : Arena) (symbol : String) :
    ∀ (T : List Nat) (v : List Nat) (x : Nat), x ∈ v →
      x ∈ T.foldl (fun v2 st => (dfsState a symbol v2 st).val) v := by
  intro T
  induction T with
  | nil => intro v x hx; simpa using hx
  | cons s T ih =>
    intro v x hx
    simp only [List.foldl_cons]
    exact ih _ x ((dfsState a symbol v s).property x hx)

theorem mem_enclosure_of_mem (a : Arena) (symbol : String) :
    ∀ (T : List Nat) (v : List Nat) (s : Nat), s ∈ T →
      s ∈ T.foldl (fun v2 st => (dfsState a symbol v2 st).val) v := by
  intro T
  induction T with
  | nil => intro v s hs; cases hs
  | cons t T ih =>
    intro v s hs
    simp only [List.foldl_cons]
    rcases List.mem_cons.mp hs with h | h
    · subst h
      refine foldl_dfs_grows a symbol T _ s ?_
      exact (dfsState_ok a symbol v s).2.2.1
    · exact ih _ s h

theorem enclosure_closed_aux (a : Arena) (symbol : String) :
    ∀ (T : List Nat) (v : List Nat),
      (∀ j, j ∈ v → ∀ e, e ∈ nextAt a j → e.symbol = some symbol →
        e.tgt ∈ v) →
      ∀ j, j ∈ T.foldl (fun v2 st => (dfsState a symbol v2 st).val) v →
        ∀ e, e ∈ nextAt a j → e.symbol = some symbol →
          e.tgt ∈ T.foldl (fun v2 st => (dfsState a symbol v2 st).val) v := by
  intro T
  induction T with
  | nil => intro v hv; simpa using hv
  | cons s T ih =>
    intro v hv
    simp only [List.foldl_cons]
    refine ih _ ?_
    intro j hj e he hes
    rcases dfsState_ok a symbol v s with ⟨_, _, _, hclosed⟩
    by_cases hjv : j ∈ v
    · exact (dfsState a symbol v s).property _ (hv j hjv e he hes)
    · exact hclosed j hj hjv e he hes

theorem enclosure_sound_aux (a : Arena) (symbol : String) :
    ∀ (T : List Nat) (v : List Nat) (x : Nat),
      x ∈ T.foldl (fun v2 st => (dfsState a symbol v2 st).val) v →
      x ∈ v ∨ ∃ s, s ∈ T ∧ Reach a symbol s x := by
  intro T
  induction T with
  | nil => intro v x hx; exact Or.inl (by simpa using hx)
  | cons s T ih =>
    intro v x hx
    simp only [List.foldl_cons] at hx
    rcases ih _ x hx with h | ⟨t, ht, hr⟩
    · rcases (dfsState_ok a symbol v s).1 with ⟨fresh, hw, _, hreach⟩
      rw [hw] at h
      rcases List.mem_append.mp h with h2 | h2
      · exact Or.inl h2
      · exact Or.inr ⟨s, List.mem_cons_self s T, hreach x h2⟩
    · exact Or.inr ⟨t, List.mem_cons_of_mem s ht, hr⟩

theorem enclosure_nodup_aux (a : Arena) (symbol : String) :
    ∀ (T : List Nat) (v : List Nat), v.Nodup →
      (T.foldl (fun v2 st => (dfsState a symbol v2 st).val) v).Nodup := by
  intro T
  induction T with
  | nil => intro v hv; simpa using hv
  | cons s T ih =>
    intro v hv
    simp only [List.foldl_cons]
    exact ih _ ((dfsState_ok a symbol v s).2.1 hv)

/-- The closure contains every state of the input collection. -/
theorem enclosure_contains (a : Arena) (symbol : String) (T : List Nat)
    {s : Nat} (hs : s ∈ T) : s ∈ enclosure a T symbol :=
  mem_enclosure_of_mem a symbol T [] s hs

/-- The closure is closed under matching transitions. -/
theorem enclosure_closed (a : Arena) (symbol : String) (T : List Nat) :
    ∀ j, j ∈ enclosure a T symbol → ∀ e, e ∈ nextAt a j →
      e.symbol = some symbol → e.tgt ∈ enclosure a T symbol := by
  refine enclosure_closed_aux a symbol T [] ?_
  intro j hj
  cases hj

/-- Characterization of `NFA.enclosure`: membership is reachability from
the input collection by transitions labeled with the requested symbol. -/
theorem mem_enclosure_iff (a : Arena) (symbol : String) (T : List Nat)
    (x : Nat) :
    x ∈ enclosure a T symbol ↔ ∃ s, s ∈ T ∧ Reach a symbol s x := by
  constructor
  · intro hx
    rcases enclosure_sound_aux a symbol T [] x hx with h | h
    · cases h
    · exact h
  · rintro ⟨s, hs, hr⟩
    induction hr with
    | refl => exact enclosure_contains a symbol T hs
    | tail hij he hes ih =>
      exact enclosure_closed a symbol T _ ih _ he hes

/-- The closure result never contains duplicates. -/
theorem enclosure_nodup (a : Arena) (symbol : String) (T : List Nat) :
    (enclosure a T symbol).Nodup :=
  enclosure_nodup_aux a symbol T [] List.nodup_nil

/-! ## The export operation `Automaton.cytograph`

The JS method runs a depth-first traversal from the initial state with an
identity-keyed visited set; it pushes one vertex descriptor per newly
visited state and one edge descriptor per traversed transition — both
onto the same `states` list — and finally appends the `edges` list, which
stays empty. -/

/-- One element of the Cytoscape-format output: a vertex descriptor
`\x7bdata: \x7bid, label\x7d\x7d` or an edge descriptor
`\x7bdata: \x7bsource, target, label\x7d\x7d`. -/
inductive Cyto where
  | vertex (id : Nat) (label : Nat)
  | edge (source : Nat) (target : Nat) (label : Option String)
deriving DecidableEq, Repr

/-- Is this descriptor a vertex descriptor? -/
def isVertex : Cyto → Bool
  | .vertex _ _ => true
  | .edge _ _ _ => false

/-- Is this descriptor an edge descriptor? -/
def isEdge : Cyto → Bool
  | .vertex _ _ => false
  | .edge _ _ _ => true

/-- The vertex descriptor pushed for the state at index `j`: both `id`
and `label` are the state's `label` field. -/
def vertexOf (a : Arena) (j : Nat) : Cyto :=
  .vertex (labelAt a j) (labelAt a j)

/-- The edge descriptors of all transitions out of the state at index
`j`, in edge order. -/
def edgesOf (a : Arena) (j : Nat) : List Cyto :=
  (nextAt a j).map (fun e => .edge (labelAt a j) (labelAt a e.tgt) e.symbol)

mutual

/-- The inner `DFS` of `Automaton.cytograph`: skip a visited state;
otherwise record it, push its vertex descriptor, and per outgoing edge
push the edge descriptor and recurse into its target. -/
def cgState (a : Arena) (v : List Nat) (out : List Cyto) (i : Nat) :
    {p : List Nat × List Cyto // ∀ x, x ∈ v → x ∈ p.1} :=
  if hv : i ∈ v then ⟨(v, out), fun _ hx => hx⟩
  else if hlt : i < a.length then
    match cgEdges a (v ++ [i]) (out ++ [vertexOf a i]) (labelAt a i)
        (nextAt a i) with
    | ⟨p, hp⟩ => ⟨p, fun x hx => hp x (List.mem_append.mpr (Or.inl hx))⟩
  else ⟨(v ++ [i], out ++ [vertexOf a i]),
    fun x hx => List.mem_append.mpr (Or.inl hx)⟩
termination_by (unvisited a v, 0, 0)
decreasing_by
  exact Prod.Lex.left _ _ (unvisited_grow_lt a hlt hv)

/-- The `for (const edge of state.next)` loop of the export `DFS`. -/
def cgEdges (a : Arena) (v : List Nat) (out : List Cyto) (srcLabel : Nat)
    (es : List Edge) : {p : List Nat × List Cyto // ∀ x, x ∈ v → x ∈ p.1} :=
  match es with
  | [] => ⟨(v, out), fun _ hx => hx⟩
  | e :: rest =>
    match cgState a v (out ++ [.edge srcLabel (labelAt a e.tgt) e.symbol])
        e.tgt with
    | ⟨p1, hp1⟩ =>
      match cgEdges a p1.1 p1.2 srcLabel rest with
      | ⟨p2, hp2⟩ => ⟨p2, fun x hx => hp2 x (hp1 x hx)⟩
termination_by (unvisited a v, 1, es.length)
decreasing_by
  · exact Prod.Lex.right _ (Prod.Lex.left _ _ Nat.zero_lt_one)
  · rcases Nat.eq_or_lt_of_le (unvisited_le_of_grow a hp1) with heq | hlt
    · rw [heq]
      exact Prod.Lex.right _ (Prod.Lex.right _ (Nat.lt_succ_self _))
    · exact Prod.Lex.left _ _ hlt

end

/-- The list of states visited by one export run. -/
def cgVisited (a : Arena) (initial : Nat) : List Nat :=
  (cgState a [] [] initial).val.1

/-- `Automaton.cytograph`: run the export `DFS` from the initial state and
return `states.concat(edges)` — where `edges` stayed empty because the
code pushes edge descriptors onto `states`. -/
def cytograph (a : Arena) (initial : Nat) : List Cyto :=
  let states := (cgState a [] [] initial).val.2
  let edges : List Cyto := []
  states ++ edges

theorem nextAt_eq_nil_of_ge {a : Arena} {i : Nat} (h : ¬ i < a.length) :
    nextAt a i = [] := by
  unfold nextAt
  rw [List.get?_eq_none.mpr (Nat.le_of_not_lt h)]
  rfl

/-- What one export `DFS` call guarantees: the visited list grows by a
fresh block; the output grows by a block holding exactly one vertex
descriptor per fresh state (in discovery order) and exactly the edge
descriptors of all transitions of the fresh states; no duplicate visits. -/
def CgStateOk (a : Arena) (v : List Nat) (out : List Cyto) (i : Nat)
    (p : List Nat × List Cyto) : Prop :=
  ∃ fresh delta, p.1 = v ++ fresh ∧ p.2 = out ++ delta ∧
    delta.filter isVertex = fresh.map (vertexOf a) ∧
    (delta.filter isEdge).Perm (fresh.flatMap (edgesOf a)) ∧
    (∀ x, x ∈ fresh → x ∉ v) ∧ (v.Nodup → (v ++ fresh).Nodup) ∧
    i ∈ p.1

/-- What the edge loop of the export `DFS` guarantees. -/
def CgEdgesOk (a : Arena) (v : List Nat) (out : List Cyto) (srcLabel : Nat)
    (es : List Edge) (p : List Nat × List Cyto) : Prop :=
  ∃ fresh delta, p.1 = v ++ fresh ∧ p.2 = out ++ delta ∧
    delta.filter isVertex = fresh.map (vertexOf a) ∧
    (delta.filter isEdge).Perm
      (es.map (fun e => Cyto.edge srcLabel (labelAt a e.tgt) e.symbol) ++
        fresh.flatMap (edgesOf a)) ∧
    (∀ x, x ∈ fresh → x ∉ v) ∧ (v.Nodup → (v ++ fresh).Nodup)

mutual

theorem cgState_ok (a : Arena) (v : List Nat) (out : List Cyto) (i : Nat) :
    CgStateOk a v out i (cgState a v out i).val := by
  rw [cgState]
  by_cases hv : i ∈ v
  · simp only [dif_pos hv]
    exact ⟨[], [], by simp, by simp, by simp, by simp, by simp, by simp,
      hv⟩
  · by_cases hlt : i < a.length
    · simp only [dif_neg hv, dif_pos hlt]
      have hrec := cgEdges_ok a (v ++ [i]) (out ++ [vertexOf a i])
        (labelAt a i) (nextAt a i)
      rcases hr : cgEdges a (v ++ [i]) (out ++ [vertexOf a i])
          (labelAt a i) (nextAt a i) with ⟨p, hp⟩
      rw [hr] at hrec
      simp only at hrec ⊢
      rcases hrec with ⟨fresh2, delta2, h1, h2, hdv, hde, hdisj, hnd⟩
      refine ⟨i :: fresh2, vertexOf a i :: delta2, ?_, ?_, ?_, ?_, ?_, ?_,
        ?_⟩
      · rw [h1, List.append_assoc]
        rfl
      · rw [h2, List.append_assoc]
        rfl
      · rw [List.filter_cons]
        have : isVertex (vertexOf a i) = true := rfl
        rw [if_pos this, hdv]
        rfl
      · rw [List.filter_cons]
        have : isEdge (vertexOf a i) = false := rfl
        rw [this]
        simp only [Bool.false_eq_true, if_false, List.flatMap_cons]
        refine hde.trans (List.Perm.of_eq ?_)
        rfl
      · intro x hx
        rcases List.mem_cons.mp hx with h | h
        · subst h; exact hv
        · intro hxv
          exact hdisj x h (List.mem_append.mpr (Or.inl hxv))
      · intro hvnd
        have hAnd : (v ++ [i]).Nodup := by
          rw [List.nodup_append]
          exact ⟨hvnd, List.nodup_singleton i, by simpa using hv⟩
        have := hnd hAnd
        rwa [List.append_assoc] at this
      · rw [h1]
        exact List.mem_append.mpr
          (Or.inl (List.mem_append.mpr (Or.inr (List.mem_singleton.mpr rfl))))
    · simp only [dif_neg hv, dif_neg hlt]
      refine ⟨[i], [vertexOf a i], rfl, rfl, rfl, ?_, ?_, ?_, ?_⟩
      · have : edgesOf a i = [] := by
          unfold edgesOf
          rw [nextAt_eq_nil_of_ge hlt]
          rfl
        simp [this, isEdge, vertexOf]
      · intro x hx
        rw [List.mem_singleton.mp hx]
        exact hv
      · intro hvnd
        rw [List.nodup_append]
        exact ⟨hvnd, List.nodup_singleton i, by simpa using hv⟩
      · exact List.mem_append.mpr (Or.inr (List.mem_singleton.mpr rfl))
termination_by (unvisited a v, 0, 0)
decreasing_by
  exact Prod.Lex.left _ _ (unvisited_grow_lt a hlt hv)

theorem cgEdges_ok (a : Arena) (v : List Nat) (out : List Cyto)
    (srcLabel : Nat) (es : List Edge) :
    CgEdgesOk a v out srcLabel es (cgEdges a v out srcLabel es).val := by
  cases es with
  | nil =>
    rw [cgEdges]
    exact ⟨[], [], by simp, by simp, by simp, by simp, by simp, by simp⟩
  | cons e rest =>
    rw [cgEdges]
    have hrec1 := cgState_ok a v
      (out ++ [Cyto.edge srcLabel (labelAt a e.tgt) e.symbol]) e.tgt
    rcases h1 : cgState a v
        (out ++ [Cyto.edge srcLabel (labelAt a e.tgt) e.symbol]) e.tgt
      with ⟨p1, hp1⟩
    rw [h1] at hrec1
    simp only at hrec1
    have hrec2 := cgEdges_ok a p1.1 p1.2 srcLabel rest
    rcases h2 : cgEdges a p1.1 p1.2 srcLabel rest with ⟨p2, hp2⟩
    rw [h2] at hrec2
    simp only at hrec2
    rcases hrec1 with ⟨f1, d1, hf1, hd1, hv1, he1, hdis1, hnd1, hmem1⟩
    rcases hrec2 with ⟨f2, d2, hf2, hd2, hv2, he2, hdis2, hnd2⟩
    refine ⟨f1 ++ f2,
      Cyto.edge srcLabel (labelAt a e.tgt) e.symbol :: (d1 ++ d2),
      ?_, ?_, ?_, ?_, ?_, ?_⟩
    · show (cgEdges a p1.1 p1.2 srcLabel rest).val.1 = v ++ (f1 ++ f2)
      rw [h2]
      show p2.1 = v ++ (f1 ++ f2)
      rw [hf2, hf1, List.append_assoc]
    · show (cgEdges a p1.1 p1.2 srcLabel rest).val.2 =
        out ++ (Cyto.edge srcLabel (labelAt a e.tgt) e.symbol :: (d1 ++ d2))
      rw [h2]
      show p2.2 = out ++ (Cyto.edge srcLabel (labelAt a e.tgt) e.symbol ::
        (d1 ++ d2))
      rw [hd2, hd1]
      simp [List.append_assoc]
    · rw [List.filter_cons]
      have : isEdge (Cyto.edge srcLabel (labelAt a e.tgt) e.symbol) = true :=
        rfl
      simp only [isVertex, Bool.false_eq_true, if_false, List.filter_append,
        hv1, hv2, List.map_append]
    · refine List.perm_iff_count.mpr (fun x => ?_)
      simp only [List.filter_cons, List.filter_append]
      have hVrt : isEdge (Cyto.edge srcLabel (labelAt a e.tgt) e.symbol)
          = true := rfl
      rw [if_pos hVrt]
      simp only [List.count_cons, List.count_append, List.map_cons,
        List.flatMap_append]
      have c1 := he1.count_eq x
      have c2 := he2.count_eq x
      simp only [List.count_append] at c1 c2
      omega
    · intro x hx
      rcases List.mem_append.mp hx with h | h
      · exact hdis1 x h
      · intro hxv
        exact hdis2 x h (by rw [hf1]; exact List.mem_append.mpr (Or.inl hxv))
    · intro hvnd
      have h1nd := hnd1 hvnd
      rw [← hf1] at h1nd
      have := hnd2 h1nd
      rw [hf1, List.append_assoc] at this
      exact this
termination_by (unvisited a v, 1, es.length)
decreasing_by
  · exact Prod.Lex.right _ (Prod.Lex.left _ _ Nat.zero_lt_one)
  · rcases Nat.eq_or_lt_of_le (unvisited_le_of_grow a hp1) with heq | hlt
    · rw [heq]
      exact Prod.Lex.right _ (Prod.Lex.right _ (Nat.lt_succ_self _))
    · exact Prod.Lex.left _ _ hlt

end

/-! ## Size and label bookkeeping of the Thompson construction -/

mutual

/-- Number of states `generateGraph` allocates for a node (derived from
the allocation sites in each `switch` case; an unrecognized kind
allocates none). -/
def treeStates : SyntaxTreeNode → Nat
  | .mk ty _ ps sb =>
    if ty = "empty" then 1
    else if ty = "text" then 1
    else if ty = "or" then ps.length + treeStatesL ps + 1
    else if ty = "cat" then treeStatesL ps
    else if ty = "star" ∨ ty = "plus" ∨ ty = "optional" then
      2 + (match sb with | some t => treeStates t | none => 0)
    else 0

/-- Sum of `treeStates` over a parts list. -/
def treeStatesL : List SyntaxTreeNode → Nat
  | [] => 0
  | t :: ts => treeStates t + treeStatesL ts

end

mutual

/-- Number of transitions `generateGraph` adds for a node on a
successful run. -/
def treeTrans : SyntaxTreeNode → Nat
  | .mk ty _ ps sb =>
    if ty = "empty" then 1
    else if ty = "text" then 1
    else if ty = "or" then 2 * ps.length + treeTransL ps
    else if ty = "cat" then treeTransL ps
    else if ty = "star" ∨ ty = "plus" ∨ ty = "optional" then
      (match sb with | some t => treeTrans t | none => 0) + 2 +
        (if ty = "star" ∨ ty = "plus" then 1 else 0) +
        (if ty = "star" ∨ ty = "optional" then 1 else 0)
    else 0

/-- Sum of `treeTrans` over a parts list. -/
def treeTransL : List SyntaxTreeNode → Nat
  | [] => 0
  | t :: ts => treeTrans t + treeTransL ts

end


theorem treeStatesL_nil : treeStatesL [] = 0 := by
  rw [treeStatesL.eq_def]

theorem treeStatesL_cons (t : SyntaxTreeNode) (ts : List SyntaxTreeNode) :
    treeStatesL (t :: ts) = treeStates t + treeStatesL ts := by
  rw [treeStatesL.eq_def]

theorem treeTransL_nil : treeTransL [] = 0 := by
  rw [treeTransL.eq_def]

theorem treeTransL_cons (t : SyntaxTreeNode) (ts : List SyntaxTreeNode) :
    treeTransL (t :: ts) = treeTrans t + treeTransL ts := by
  rw [treeTransL.eq_def]

theorem treeStates_empty (ty : String) (tx : Option String)
    (ps : List SyntaxTreeNode) (sb : Option SyntaxTreeNode)
    (h1 : ty = "empty") : treeStates (.mk ty tx ps sb) = 1 := by
  rw [treeStates.eq_def]
  simp only []
  rw [if_pos h1]

theorem treeStates_text (ty : String) (tx : Option String)
    (ps : List SyntaxTreeNode) (sb : Option SyntaxTreeNode)
    (h1 : ¬ ty = "empty") (h2 : ty = "text") :
    treeStates (.mk ty tx ps sb) = 1 := by
  rw [treeStates.eq_def]
  simp only []
  rw [if_neg h1, if_pos h2]

theorem treeStates_or (ty : String) (tx : Option String)
    (ps : List SyntaxTreeNode) (sb : Option SyntaxTreeNode)
    (h1 : ¬ ty = "empty") (h2 : ¬ ty = "text") (h3 : ty = "or") :
    treeStates (.mk ty tx ps sb) = ps.length + treeStatesL ps + 1 := by
  rw [treeStates.eq_def]
  simp only []
  rw [if_neg h1, if_neg h2, if_pos h3]

theorem treeStates_cat (ty : String) (tx : Option String)
    (ps : List SyntaxTreeNode) (sb : Option SyntaxTreeNode)
    (h1 : ¬ ty = "empty") (h2 : ¬ ty = "text") (h3 : ¬ ty = "or")
    (h4 : ty = "cat") : treeStates (.mk ty tx ps sb) = treeStatesL ps := by
  rw [treeStates.eq_def]
  simp only []
  rw [if_neg h1, if_neg h2, if_neg h3, if_pos h4]

theorem treeStates_rep (ty : String) (tx : Option String)
    (ps : List SyntaxTreeNode) (sub : SyntaxTreeNode)
    (h1 : ¬ ty = "empty") (h2 : ¬ ty = "text") (h3 : ¬ ty = "or")
    (h4 : ¬ ty = "cat")
    (h5 : ty = "star" ∨ ty = "plus" ∨ ty = "optional") :
    treeStates (.mk ty tx ps (some sub)) = 2 + treeStates sub := by
  rw [treeStates.eq_def]
  simp only []
  rw [if_neg h1, if_neg h2, if_neg h3, if_neg h4, if_pos h5]

theorem treeStates_unknown (ty : String) (tx : Option String)
    (ps : List SyntaxTreeNode) (sb : Option SyntaxTreeNode)
    (h1 : ¬ ty = "empty") (h2 : ¬ ty = "text") (h3 : ¬ ty = "or")
    (h4 : ¬ ty = "cat")
    (h5 : ¬ (ty = "star" ∨ ty = "plus" ∨ ty = "optional")) :
    treeStates (.mk ty tx ps sb) = 0 := by
  rw [treeStates.eq_def]
  simp only []
  rw [if_neg h1, if_neg h2, if_neg h3, if_neg h4, if_neg h5]

theorem treeTrans_empty (ty : String) (tx : Option String)
    (ps : List SyntaxTreeNode) (sb : Option SyntaxTreeNode)
    (h1 : ty = "empty") : treeTrans (.mk ty tx ps sb) = 1 := by
  rw [treeTrans.eq_def]
  simp only []
  rw [if_pos h1]

theorem treeTrans_text (ty : String) (tx : Option String)
    (ps : List SyntaxTreeNode) (sb : Option SyntaxTreeNode)
    (h1 : ¬ ty = "empty") (h2 : ty = "text") :
    treeTrans (.mk ty tx ps sb) = 1 := by
  rw [treeTrans.eq_def]
  simp only []
  rw [if_neg h1, if_pos h2]

theorem treeTrans_or (ty : String) (tx : Option String)
    (ps : List SyntaxTreeNode) (sb : Option SyntaxTreeNode)
    (h1 : ¬ ty = "empty") (h2 : ¬ ty = "text") (h3 : ty = "or") :
    treeTrans (.mk ty tx ps sb) = 2 * ps.length + treeTransL ps := by
  rw [treeTrans.eq_def]
  simp only []
  rw [if_neg h1, if_neg h2, if_pos h3]

theorem treeTrans_cat (ty : String) (tx : Option String)
    (ps : List SyntaxTreeNode) (sb : Option SyntaxTreeNode)
    (h1 : ¬ ty = "empty") (h2 : ¬ ty = "text") (h3 : ¬ ty = "or")
    (h4 : ty = "cat") : treeTrans (.mk ty tx ps sb) = treeTransL ps := by
  rw [treeTrans.eq_def]
  simp only []
  rw [if_neg h1, if_neg h2, if_neg h3, if_pos h4]

theorem treeTrans_rep (ty : String) (tx : Option String)
    (ps : List SyntaxTreeNode) (sub : SyntaxTreeNode)
    (h1 : ¬ ty = "empty") (h2 : ¬ ty = "text") (h3 : ¬ ty = "or")
    (h4 : ¬ ty = "cat")
    (h5 : ty = "star" ∨ ty = "plus" ∨ ty = "optional") :
    treeTrans (.mk ty tx ps (some sub)) = treeTrans sub + 2 +
      (if ty = "star" ∨ ty = "plus" then 1 else 0) +
      (if ty = "star" ∨ ty = "optional" then 1 else 0) := by
  rw [treeTrans.eq_def]
  simp only []
  rw [if_neg h1, if_neg h2, if_neg h3, if_neg h4, if_pos h5]

theorem treeTrans_unknown (ty : String) (tx : Option String)
    (ps : List SyntaxTreeNode) (sb : Option SyntaxTreeNode)
    (h1 : ¬ ty = "empty") (h2 : ¬ ty = "text") (h3 : ¬ ty = "or")
    (h4 : ¬ ty = "cat")
    (h5 : ¬ (ty = "star" ∨ ty = "plus" ∨ ty = "optional")) :
    treeTrans (.mk ty tx ps sb) = 0 := by
  rw [treeTrans.eq_def]
  simp only []
  rw [if_neg h1, if_neg h2, if_neg h3, if_neg h4, if_neg h5]

/-- The labels of the arena slots, in allocation order. -/
def labelsOf (a : Arena) : List Nat :=
  a.map (fun st => st.label)

/-- Every transition of the arena stays inside the arena. -/
def WfArena (a : Arena) : Prop :=
  ∀ j, ∀ e, e ∈ nextAt a j → e.tgt < a.length

theorem modifyIdx_length (l : List α) (i : Nat) (f : α → α) :
    (modifyIdx l i f).length = l.length := by
  induction l generalizing i with
  | nil => rfl
  | cons x xs ih =>
    cases i with
    | zero => rfl
    | succ n => simp [modifyIdx, ih]

theorem get?_modifyIdx_ne (l : List α) (f : α → α) {i j : Nat}
    (h : j ≠ i) : (modifyIdx l i f).get? j = l.get? j := by
  induction l generalizing i j with
  | nil => rfl
  | cons x xs ih =>
    cases i with
    | zero =>
      cases j with
      | zero => exact absurd rfl h
      | succ m => rfl
    | succ n =>
      cases j with
      | zero => rfl
      | succ m =>
        simp only [modifyIdx, List.get?_cons_succ]
        exact ih (fun he => h (by rw [he]))

theorem get?_modifyIdx_self (l : List α) (f : α → α) {i : Nat}
    (h : i < l.length) :
    (modifyIdx l i f).get? i = (l.get? i).map f := by
  induction l generalizing i with
  | nil => cases h
  | cons x xs ih =>
    cases i with
    | zero => rfl
    | succ n =>
      simp only [modifyIdx, List.get?_cons_succ]
      exact ih (Nat.lt_of_succ_lt_succ h)

theorem labelsOf_modifyIdx (a : Arena) (i : Nat) (f : StateData → StateData)
    (hf : ∀ st, (f st).label = st.label) :
    labelsOf (modifyIdx a i f) = labelsOf a := by
  induction a generalizing i with
  | nil => rfl
  | cons x xs ih =>
    cases i with
    | zero => simp [modifyIdx, labelsOf, hf]
    | succ n =>
      simp only [modifyIdx, labelsOf, List.map_cons]
      have h2 := ih n
      simp only [labelsOf] at h2
      rw [h2]

theorem totalEdges_modify_push (a : Arena) (e : Edge) :
    ∀ i, i < a.length →
      totalEdges (modifyIdx a i
        (fun st => ⟨st.label, st.next ++ [e]⟩)) = totalEdges a + 1 := by
  induction a with
  | nil => intro i h; cases h
  | cons x xs ih =>
    intro i h
    cases i with
    | zero => simp [modifyIdx, totalEdges]; omega
    | succ n =>
      have := ih n (Nat.lt_of_succ_lt_succ h)
      simp only [modifyIdx, totalEdges, List.map_cons, List.sum_cons] at this ⊢
      omega

/-! Effects of the two heap primitives. -/

theorem newState_fst (s : BuildState) : (newState s).1 = s.arena.length := rfl

theorem newState_arena (s : BuildState) :
    (newState s).2.arena = s.arena ++ [⟨s.label + 1, []⟩] := rfl

theorem newState_label (s : BuildState) : (newState s).2.label = s.label + 1 :=
  rfl

theorem newState_length (s : BuildState) :
    (newState s).2.arena.length = s.arena.length + 1 := by
  simp [newState]

theorem labelsOf_newState (s : BuildState) :
    labelsOf (newState s).2.arena = labelsOf s.arena ++ [s.label + 1] := by
  simp [newState, labelsOf]

theorem totalEdges_newState (s : BuildState) :
    totalEdges (newState s).2.arena = totalEdges s.arena := by
  simp [newState, totalEdges]

theorem nextAt_newState_old (s : BuildState) {j : Nat}
    (h : j < s.arena.length) :
    nextAt (newState s).2.arena j = nextAt s.arena j := by
  simp only [newState, nextAt]
  rw [List.get?_append h]

theorem nextAt_newState_new (s : BuildState) :
    nextAt (newState s).2.arena s.arena.length = [] := by
  simp only [newState, nextAt]
  rw [List.get?_append_right (Nat.le_refl _)]
  simp

theorem nextAt_ge {a : Arena} {j : Nat} (h : a.length ≤ j) :
    nextAt a j = [] := by
  unfold nextAt
  rw [List.get?_eq_none.mpr h]
  rfl

theorem WfArena_newState (s : BuildState) (hwf : WfArena s.arena) :
    WfArena (newState s).2.arena := by
  intro j e he
  rw [newState_length]
  by_cases hj : j < s.arena.length
  · rw [nextAt_newState_old s hj] at he
    exact Nat.lt_succ_of_lt (hwf j e he)
  · by_cases hj2 : j = s.arena.length
    · subst hj2
      rw [nextAt_newState_new] at he
      cases he
    · have hge : (newState s).2.arena.length ≤ j := by
        rw [newState_length]
        omega
      rw [nextAt_ge hge] at he
      cases he

theorem addNextB_length (s : BuildState) (i : Nat) (sym : Option String)
    (t : Nat) : (addNextB s i sym t).arena.length = s.arena.length := by
  simp [addNextB, modifyIdx_length]

theorem addNextB_label (s : BuildState) (i : Nat) (sym : Option String)
    (t : Nat) : (addNextB s i sym t).label = s.label := rfl

theorem labelsOf_addNextB (s : BuildState) (i : Nat) (sym : Option String)
    (t : Nat) : labelsOf (addNextB s i sym t).arena = labelsOf s.arena := by
  simp only [addNextB]
  exact labelsOf_modifyIdx _ _ _ (fun st => rfl)

theorem nextAt_addNextB_ne (s : BuildState) (sym : Option String) (t : Nat)
    {i j : Nat} (h : j ≠ i) :
    nextAt (addNextB s i sym t).arena j = nextAt s.arena j := by
  simp only [addNextB, nextAt]
  rw [get?_modifyIdx_ne _ _ h]

theorem nextAt_addNextB_self (s : BuildState) (sym : Option String) (t : Nat)
    {i : Nat} (h : i < s.arena.length) :
    nextAt (addNextB s i sym t).arena i = nextAt s.arena i ++ [⟨sym, t⟩] := by
  simp only [addNextB, nextAt]
  rw [get?_modifyIdx_self _ _ h]
  rcases h2 : s.arena.get? i with _ | st
  · rw [List.get?_eq_none] at h2
    omega
  · simp

theorem totalEdges_addNextB (s : BuildState) (sym : Option String) (t : Nat)
    {i : Nat} (h : i < s.arena.length) :
    totalEdges (addNextB s i sym t).arena = totalEdges s.arena + 1 := by
  simp only [addNextB]
  exact totalEdges_modify_push _ _ i h

theorem WfArena_addNextB (s : BuildState) (sym : Option String) (t : Nat)
    (i : Nat) (hwf : WfArena s.arena) (ht : t < s.arena.length) :
    WfArena (addNextB s i sym t).arena := by
  intro j e he
  rw [addNextB_length]
  by_cases hj : j = i
  · subst hj
    by_cases hlt : j < s.arena.length
    · rw [nextAt_addNextB_self s sym t hlt] at he
      rcases List.mem_append.mp he with h2 | h2
      · exact hwf j e h2
      · rw [List.mem_singleton.mp h2]
        exact ht
    · have : nextAt (addNextB s j sym t).arena j = [] := by
        refine nextAt_ge ?_
        rw [addNextB_length]
        omega
      rw [this] at he
      cases he
  · rw [nextAt_addNextB_ne s sym t hj] at he
    exact hwf j e he

theorem range_map_comp (c m n : Nat) :
    (List.range m).map (fun k => c + 1 + k) ++
      (List.range n).map (fun k => c + m + 1 + k) =
      (List.range (m + n)).map (fun k => c + 1 + k) := by
  rw [List.range_add, List.map_append, List.map_map]
  congr 1
  refine List.map_congr_left ?_
  intro k _
  simp only [Function.comp_apply]
  omega

theorem addAll_ok :
    ∀ (lst : List (Option Nat)) (acc : Nat) (s s' : BuildState),
      addAll lst acc s = .ok s' →
      (∀ x, some x ∈ lst → x < s.arena.length) →
      s'.arena.length = s.arena.length ∧ s'.label = s.label ∧
      labelsOf s'.arena = labelsOf s.arena ∧
      totalEdges s'.arena = totalEdges s.arena + lst.length ∧
      (∀ j, j < s.arena.length → (some j ∉ lst) →
        nextAt s'.arena j = nextAt s.arena j) ∧
      (WfArena s.arena → acc < s.arena.length → WfArena s'.arena) := by
  intro lst
  induction lst with
  | nil =>
    intro acc s s' h hs
    simp only [addAll] at h
    cases h
    exact ⟨rfl, rfl, rfl, by simp, fun j _ _ => rfl, fun hwf _ => hwf⟩
  | cons o rest ih =>
    intro acc s s' h hs
    match o with
    | none => simp [addAll, jsAddNext, exBind] at h
    | some i =>
      simp only [addAll, jsAddNext, exBind_ok] at h
      have hi : i < s.arena.length :=
        hs i (List.mem_cons_self _ _)
      have hrest : ∀ x, some x ∈ rest → x < (addNextB s i epsSym acc).arena.length := by
        intro x hx
        rw [addNextB_length]
        exact hs x (List.mem_cons_of_mem _ hx)
      rcases ih acc (addNextB s i epsSym acc) s' h hrest with
        ⟨hA, hB, hC, hD, hE, hF⟩
      refine ⟨?_, ?_, ?_, ?_, ?_, ?_⟩
      · rw [hA, addNextB_length]
      · rw [hB, addNextB_label]
      · rw [hC, labelsOf_addNextB]
      · rw [hD, totalEdges_addNextB s epsSym acc hi]
        simp only [List.length_cons]
        omega
      · intro j hj hnotin
        have hne : j ≠ i := by
          intro he
          exact hnotin (by rw [he]; exact List.mem_cons_self _ _)
        rw [hE j (by rw [addNextB_length]; exact hj)
            (fun hmem => hnotin (List.mem_cons_of_mem _ hmem)),
          nextAt_addNextB_ne s epsSym acc hne]
      · intro hwf hacc
        refine hF (WfArena_addNextB s epsSym acc i hwf hacc) ?_
        rw [addNextB_length]
        exact hacc

/-- Everything one successful `generateGraph` call guarantees: how far
the arena and the counter grow, which labels the new slots carry, that
states other than the given initial one keep their edge lists, that
edges keep pointing inside the arena, and where the returned accept
state sits (it is the last allocated state, or the given initial state
when the node allocated nothing). -/
def GGOk (st : SyntaxTreeNode) (initial : Option Nat) (s : BuildState)
    (r : Option Nat) (s' : BuildState) : Prop :=
  s'.arena.length = s.arena.length + treeStates st ∧
  s'.label = s.label + treeStates st ∧
  totalEdges s'.arena = totalEdges s.arena + treeTrans st ∧
  labelsOf s'.arena = labelsOf s.arena ++
    (List.range (treeStates st)).map (fun k => s.label + 1 + k) ∧
  (∀ j, j < s.arena.length → some j ≠ initial →
    nextAt s'.arena j = nextAt s.arena j) ∧
  (WfArena s.arena → WfArena s'.arena) ∧
  (∀ x, r = some x → x < s'.arena.length ∧
    (some x = initial ∨ s.arena.length ≤ x) ∧
    (x + 1 = s'.arena.length ∨
      (s'.arena.length = s.arena.length ∧ some x = initial)))

/-- The analogous pack for the `or` parts loop. -/
def GenOrOk (parts : List SyntaxTreeNode) (initial : Option Nat)
    (s : BuildState) (lst : List (Option Nat)) (s' : BuildState) : Prop :=
  s'.arena.length = s.arena.length + (parts.length + treeStatesL parts) ∧
  s'.label = s.label + (parts.length + treeStatesL parts) ∧
  totalEdges s'.arena = totalEdges s.arena +
    (parts.length + treeTransL parts) ∧
  labelsOf s'.arena = labelsOf s.arena ++
    (List.range (parts.length + treeStatesL parts)).map
      (fun k => s.label + 1 + k) ∧
  (∀ j, j < s.arena.length → some j ≠ initial →
    nextAt s'.arena j = nextAt s.arena j) ∧
  (WfArena s.arena → WfArena s'.arena) ∧
  lst.length = parts.length ∧
  (∀ o, o ∈ lst → ∀ x, o = some x →
    s.arena.length ≤ x ∧ x < s'.arena.length)

/-- The analogous pack for the `cat` parts loop. -/
def GenCatOk (parts : List SyntaxTreeNode) (prev : Option Nat)
    (s : BuildState) (r : Option Nat) (s' : BuildState) : Prop :=
  s'.arena.length = s.arena.length + treeStatesL parts ∧
  s'.label = s.label + treeStatesL parts ∧
  totalEdges s'.arena = totalEdges s.arena + treeTransL parts ∧
  labelsOf s'.arena = labelsOf s.arena ++
    (List.range (treeStatesL parts)).map (fun k => s.label + 1 + k) ∧
  (∀ j, j < s.arena.length → some j ≠ prev →
    nextAt s'.arena j = nextAt s.arena j) ∧
  (WfArena s.arena → WfArena s'.arena) ∧
  (∀ x, r = some x → x < s'.arena.length ∧
    (some x = prev ∨ s.arena.length ≤ x) ∧
    (x + 1 = s'.arena.length ∨
      (s'.arena.length = s.arena.length ∧ some x = prev)))

theorem singleton_as_range (d : Nat) :
    [d] = (List.range 1).map (fun k => d + k) := by
  rfl

theorem label_block (c ts : Nat) :
    ([c + 1] ++ ((List.range ts).map (fun k => c + 1 + 1 + k) ++
      [c + 1 + ts + 1])) = (List.range (2 + ts)).map (fun k => c + 1 + k) := by
  rw [singleton_as_range (c + 1)]
  have hx : [c + 1 + ts + 1] =
      (List.range 1).map (fun k => c + (1 + ts) + 1 + k) := by
    have he : c + 1 + ts + 1 = c + (1 + ts) + 1 := by omega
    rw [he, singleton_as_range (c + (1 + ts) + 1)]
  rw [hx, ← List.append_assoc, range_map_comp c 1 ts,
    range_map_comp c (1 + ts) 1]
  have h2 : 1 + ts + 1 = 2 + ts := by omega
  rw [h2]

/-- Shared conclusion of the `star`/`plus`/`optional` skeleton: after
allocating the inner initial state, wiring it, building the wrapped node
(summarized by `hsub`), optionally adding the loop edge, allocating the
final accept state, wiring the inner accept to it and optionally adding
the bypass edge. -/
theorem starCommon (doLoop doBypass : Bool) (sub : SyntaxTreeNode)
    (i t : Nat) (s s3 : BuildState)
    (hsub : GGOk sub (some s.arena.length)
      (addNextB (newState s).2 i epsSym s.arena.length) (some t) s3)
    (hi : i < s.arena.length) :
    totalEdges (if doBypass then
        addNextB (addNextB (newState (if doLoop then
          addNextB s3 t epsSym s.arena.length else s3)).2 t epsSym
          (if doLoop then addNextB s3 t epsSym s.arena.length
            else s3).arena.length) i epsSym
          (if doLoop then addNextB s3 t epsSym s.arena.length
            else s3).arena.length
      else addNextB (newState (if doLoop then
          addNextB s3 t epsSym s.arena.length else s3)).2 t epsSym
          (if doLoop then addNextB s3 t epsSym s.arena.length
            else s3).arena.length).arena =
      totalEdges s.arena + (treeTrans sub + 2 +
        (if doLoop then 1 else 0) + (if doBypass then 1 else 0)) ∧
    (let s4 := if doLoop then addNextB s3 t epsSym s.arena.length else s3
     let accept := s4.arena.length
     let s7 := if doBypass then
         addNextB (addNextB (newState s4).2 t epsSym accept) i epsSym accept
       else addNextB (newState s4).2 t epsSym accept
     s7.arena.length = s.arena.length + (2 + treeStates sub) ∧
     s7.label = s.label + (2 + treeStates sub) ∧
     labelsOf s7.arena = labelsOf s.arena ++
       (List.range (2 + treeStates sub)).map (fun k => s.label + 1 + k) ∧
     (∀ j, j < s.arena.length → j ≠ i →
       nextAt s7.arena j = nextAt s.arena j) ∧
     (WfArena s.arena → WfArena s7.arena) ∧
     accept < s7.arena.length ∧ s.arena.length ≤ accept ∧
     accept + 1 = s7.arena.length) := by
  rcases hsub with ⟨hA, hB, hC, hD, hE, hF, hG⟩
  rcases hG t rfl with ⟨hGlt, hGor, _⟩
  have hs2len : (addNextB (newState s).2 i epsSym s.arena.length).arena.length
      = s.arena.length + 1 := by
    rw [addNextB_length, newState_length]
  have hs2lab : (addNextB (newState s).2 i epsSym s.arena.length).label
      = s.label + 1 := by
    rw [addNextB_label, newState_label]
  have htge : s.arena.length ≤ t := by
    rcases hGor with h | h
    · injection h with h2
      omega
    · rw [hs2len] at h
      omega
  have hs3len : s3.arena.length = s.arena.length + 1 + treeStates sub := by
    rw [hA, hs2len]
  have hs3lab : s3.label = s.label + 1 + treeStates sub := by
    rw [hB, hs2lab]
  have htlt : t < s3.arena.length := hGlt
  -- the state after the optional loop edge
  set s4 := if doLoop then addNextB s3 t epsSym s.arena.length else s3 with hs4
  have hs4len : s4.arena.length = s3.arena.length := by
    rw [hs4]
    cases doLoop <;> simp [addNextB_length]
  have hs4lab : s4.label = s3.label := by
    rw [hs4]
    cases doLoop <;> simp [addNextB_label]
  have hs4labels : labelsOf s4.arena = labelsOf s3.arena := by
    rw [hs4]
    cases doLoop <;> simp [labelsOf_addNextB]
  have hs4edges : totalEdges s4.arena =
      totalEdges s3.arena + (if doLoop then 1 else 0) := by
    rw [hs4]
    cases doLoop <;> simp [totalEdges_addNextB s3 epsSym s.arena.length htlt]
  have hs4frame : ∀ j, j < s.arena.length →
      nextAt s4.arena j = nextAt s3.arena j := by
    intro j hj
    rw [hs4]
    cases doLoop with
    | false => rfl
    | true =>
      simp only [if_true]
      exact nextAt_addNextB_ne s3 epsSym s.arena.length (by omega)
  have hs4wf : WfArena s3.arena → WfArena s4.arena := by
    intro hwf
    rw [hs4]
    cases doLoop with
    | false => exact hwf
    | true =>
      simp only [if_true]
      exact WfArena_addNextB s3 epsSym s.arena.length t hwf (by omega)
  set s6 := addNextB (newState s4).2 t epsSym s4.arena.length with hs6
  have hs6len : s6.arena.length = s4.arena.length + 1 := by
    rw [hs6, addNextB_length, newState_length]
  have hs6lab : s6.label = s4.label + 1 := by
    rw [hs6, addNextB_label, newState_label]
  have hs6labels : labelsOf s6.arena = labelsOf s4.arena ++ [s4.label + 1] := by
    rw [hs6, labelsOf_addNextB, labelsOf_newState]
  have hs6edges : totalEdges s6.arena = totalEdges s4.arena + 1 := by
    rw [hs6, @totalEdges_addNextB (newState s4).2 epsSym s4.arena.length t
      (by rw [newState_length]; omega), totalEdges_newState]
  have hs6frame : ∀ j, j < s.arena.length →
      nextAt s6.arena j = nextAt s4.arena j := by
    intro j hj
    rw [hs6, nextAt_addNextB_ne _ epsSym s4.arena.length (by omega),
      nextAt_newState_old s4 (by omega)]
  have hs6wf : WfArena s4.arena → WfArena s6.arena := by
    intro hwf
    rw [hs6]
    refine WfArena_addNextB _ epsSym s4.arena.length t
      (WfArena_newState s4 hwf) ?_
    rw [newState_length]
    omega
  set s7 := if doBypass then addNextB s6 i epsSym s4.arena.length else s6
    with hs7
  have hs7len : s7.arena.length = s6.arena.length := by
    rw [hs7]
    cases doBypass <;> simp [addNextB_length]
  have hs7lab : s7.label = s6.label := by
    rw [hs7]
    cases doBypass <;> simp [addNextB_label]
  have hs7labels : labelsOf s7.arena = labelsOf s6.arena := by
    rw [hs7]
    cases doBypass <;> simp [labelsOf_addNextB]
  have hs7edges : totalEdges s7.arena =
      totalEdges s6.arena + (if doBypass then 1 else 0) := by
    rw [hs7]
    cases doBypass <;>
      simp [@totalEdges_addNextB s6 epsSym s4.arena.length i (by omega)]
  have hs7frame : ∀ j, j < s.arena.length → j ≠ i →
      nextAt s7.arena j = nextAt s6.arena j := by
    intro j hj hji
    rw [hs7]
    cases doBypass with
    | false => rfl
    | true =>
      simp only [if_true]
      exact nextAt_addNextB_ne s6 epsSym s4.arena.length hji
  have hs7wf : WfArena s6.arena → WfArena s7.arena := by
    intro hwf
    rw [hs7]
    cases doBypass with
    | false => exact hwf
    | true =>
      simp only [if_true]
      exact WfArena_addNextB s6 epsSym s4.arena.length i hwf (by omega)
  have hs2edges : totalEdges
      (addNextB (newState s).2 i epsSym s.arena.length).arena =
      totalEdges s.arena + 1 := by
    rw [@totalEdges_addNextB (newState s).2 epsSym s.arena.length i
      (by rw [newState_length]; omega), totalEdges_newState]
  have hs2labels : labelsOf
      (addNextB (newState s).2 i epsSym s.arena.length).arena =
      labelsOf s.arena ++ [s.label + 1] := by
    rw [labelsOf_addNextB, labelsOf_newState]
  constructor
  · -- total edges
    rw [hs7edges, hs6edges, hs4edges, hC, hs2edges]
    cases doLoop <;> cases doBypass <;> simp <;> omega
  · refine ⟨?_, ?_, ?_, ?_, ?_, ?_, ?_, ?_⟩
    · rw [hs7len, hs6len, hs4len, hs3len]
      omega
    · rw [hs7lab, hs6lab, hs4lab, hs3lab]
      omega
    · rw [hs7labels, hs6labels, hs4labels, hD, hs2labels, hs2lab, hs4lab,
        hs3lab]
      rw [List.append_assoc, List.append_assoc]
      congr 1
      exact label_block s.label (treeStates sub)
    · intro j hj hji
      rw [hs7frame j hj hji, hs6frame j hj, hs4frame j hj,
        hE j (by rw [hs2len]; omega)
          (by intro hcx; injection hcx with hcx2; omega),
        nextAt_addNextB_ne _ epsSym s.arena.length hji,
        nextAt_newState_old s hj]
    · intro hwf
      refine hs7wf (hs6wf (hs4wf (hF ?_)))
      refine WfArena_addNextB _ epsSym s.arena.length i
        (WfArena_newState s hwf) ?_
      rw [newState_length]
      omega
    · rw [hs7len, hs6len]
      omega
    · rw [hs4len, hs3len]
      omega
    · rw [hs7len, hs6len]

theorem label_chain (c m1 m2 : Nat) :
    ([c + 1] ++ ((List.range m1).map (fun k => c + 1 + 1 + k) ++
      (List.range m2).map (fun k => c + 1 + m1 + 1 + k))) =
    (List.range (1 + m1 + m2)).map (fun k => c + 1 + k) := by
  rw [singleton_as_range (c + 1), ← List.append_assoc, range_map_comp c 1 m1]
  have hx : (List.range m2).map (fun k => c + 1 + m1 + 1 + k) =
      (List.range m2).map (fun k => c + (1 + m1) + 1 + k) := by
    refine List.map_congr_left ?_
    intro k _
    omega
  rw [hx, range_map_comp c (1 + m1) m2]

/-- Common conclusion of the `empty` and `text` cases: one fresh accept
state, one transition from the given initial state to it. -/
theorem leafCommon (sym : Option String) (i : Nat) (s : BuildState)
    (hi : i < s.arena.length) :
    (addNextB (newState s).2 i sym s.arena.length).arena.length =
      s.arena.length + 1 ∧
    (addNextB (newState s).2 i sym s.arena.length).label = s.label + 1 ∧
    totalEdges (addNextB (newState s).2 i sym s.arena.length).arena =
      totalEdges s.arena + 1 ∧
    labelsOf (addNextB (newState s).2 i sym s.arena.length).arena =
      labelsOf s.arena ++ (List.range 1).map (fun k => s.label + 1 + k) ∧
    (∀ j, j < s.arena.length → j ≠ i →
      nextAt (addNextB (newState s).2 i sym s.arena.length).arena j =
        nextAt s.arena j) ∧
    (WfArena s.arena →
      WfArena (addNextB (newState s).2 i sym s.arena.length).arena) := by
  refine ⟨?_, ?_, ?_, ?_, ?_, ?_⟩
  · rw [addNextB_length, newState_length]
  · rw [addNextB_label, newState_label]
  · rw [@totalEdges_addNextB (newState s).2 sym s.arena.length i
      (by rw [newState_length]; omega), totalEdges_newState]
  · rw [labelsOf_addNextB, labelsOf_newState, ← singleton_as_range]
  · intro j hj hji
    rw [nextAt_addNextB_ne _ sym s.arena.length hji,
      nextAt_newState_old s hj]
  · intro hwf
    refine WfArena_addNextB _ sym s.arena.length i
      (WfArena_newState s hwf) ?_
    rw [newState_length]
    omega

mutual

theorem generateGraph_ok (fuel : Nat) (st : SyntaxTreeNode)
    (initial : Option Nat) (s : BuildState) (r : Option Nat)
    (s' : BuildState)
    (hinit : ∀ x, initial = some x → x < s.arena.length)
    (h : generateGraph fuel st initial s = .ok (r, s')) :
    GGOk st initial s r s' := by
  match fuel with
  | 0 => simp [generateGraph] at h
  | fuel + 1 =>
  obtain ⟨ty, tx, ps, sb⟩ := st
  by_cases hty1 : ty = "empty"
  · cases initial with
    | none =>
      rw [generateGraph, if_pos hty1] at h
      simp [jsAddNext, exBind] at h
    | some i =>
      have hi := hinit i rfl
      rw [generateGraph, if_pos hty1] at h
      simp only [jsAddNext, exBind_ok, newState_fst, Except.ok.injEq,
        Prod.mk.injEq] at h
      obtain ⟨hr, hs⟩ := h
      subst hs
      subst hr
      rcases leafCommon epsSym i s hi with ⟨hA, hB, hC, hD, hE, hF⟩
      refine ⟨?_, ?_, ?_, ?_, ?_, ?_, ?_⟩
      · rw [hA, treeStates_empty ty tx ps sb hty1]
      · rw [hB, treeStates_empty ty tx ps sb hty1]
      · rw [hC, treeTrans_empty ty tx ps sb hty1]
      · rw [hD, treeStates_empty ty tx ps sb hty1]
      · intro j hj hji
        exact hE j hj (fun he => hji (by rw [he]))
      · exact hF
      · intro x hx
        injection hx with hx2
        subst hx2
        exact ⟨by rw [hA]; omega, Or.inr (Nat.le_refl _),
          Or.inl (by rw [hA])⟩
  · by_cases hty2 : ty = "text"
    · cases initial with
      | none =>
        rw [generateGraph, if_neg hty1, if_pos hty2] at h
        simp [jsAddNext, exBind] at h
      | some i =>
        have hi := hinit i rfl
        rw [generateGraph, if_neg hty1, if_pos hty2] at h
        simp only [jsAddNext, exBind_ok, newState_fst, Except.ok.injEq,
          Prod.mk.injEq] at h
        obtain ⟨hr, hs⟩ := h
        subst hs
        subst hr
        rcases leafCommon tx i s hi with ⟨hA, hB, hC, hD, hE, hF⟩
        refine ⟨?_, ?_, ?_, ?_, ?_, ?_, ?_⟩
        · rw [hA, treeStates_text ty tx ps sb hty1 hty2]
        · rw [hB, treeStates_text ty tx ps sb hty1 hty2]
        · rw [hC, treeTrans_text ty tx ps sb hty1 hty2]
        · rw [hD, treeStates_text ty tx ps sb hty1 hty2]
        · intro j hj hji
          exact hE j hj (fun he => hji (by rw [he]))
        · exact hF
        · intro x hx
          injection hx with hx2
          subst hx2
          exact ⟨by rw [hA]; omega, Or.inr (Nat.le_refl _),
            Or.inl (by rw [hA])⟩
    · by_cases hty3 : ty = "or"
      · rw [generateGraph, if_neg hty1, if_neg hty2, if_pos hty3] at h
        cases hgo : genOr fuel ps initial s with
        | error m =>
          rw [hgo, exBind_error] at h
          exact Except.noConfusion h
        | ok p =>
          obtain ⟨lst, s1⟩ := p
          rw [hgo, exBind_ok] at h
          simp only [newState_fst, exBind_ok] at h
          cases haa : addAll lst s1.arena.length (newState s1).2 with
          | error m =>
            rw [haa, exBind_error] at h
            exact Except.noConfusion h
          | ok s3 =>
            rw [haa, exBind_ok] at h
            simp only [Except.ok.injEq, Prod.mk.injEq] at h
            obtain ⟨hr, hs3⟩ := h
            subst hs3
            subst hr
            rcases genOr_ok fuel ps initial s lst s1 hinit hgo with
              ⟨oA, oB, oC, oD, oE, oF, oLen, oMem⟩
            have hsrc : ∀ x, some x ∈ lst →
                x < (newState s1).2.arena.length := by
              intro x hx
              rw [newState_length]
              rcases oMem (some x) hx x rfl with ⟨_, hlt⟩
              omega
            rcases addAll_ok lst s1.arena.length (newState s1).2 s3 haa
              hsrc with ⟨aA, aB, aC, aD, aE, aF⟩
            have hts : treeStates (.mk ty tx ps sb) =
                ps.length + treeStatesL ps + 1 :=
              treeStates_or ty tx ps sb hty1 hty2 hty3
            have htt : treeTrans (.mk ty tx ps sb) =
                2 * ps.length + treeTransL ps :=
              treeTrans_or ty tx ps sb hty1 hty2 hty3
            refine ⟨?_, ?_, ?_, ?_, ?_, ?_, ?_⟩
            · rw [aA, newState_length, oA, hts]
              omega
            · rw [aB, newState_label, oB, hts]
              omega
            · rw [aD, totalEdges_newState, oC, oLen, htt]
              omega
            · rw [aC, labelsOf_newState, oD, oB, List.append_assoc,
                singleton_as_range
                  (s.label + (ps.length + treeStatesL ps) + 1),
                range_map_comp s.label (ps.length + treeStatesL ps) 1, hts]
            · intro j hj hji
              have hjlen : j < s1.arena.length := by
                rw [oA]
                omega
              have hnotin : some j ∉ lst := by
                intro hmem
                rcases oMem (some j) hmem j rfl with ⟨hge, _⟩
                omega
              rw [aE j (by rw [newState_length]; omega) hnotin,
                nextAt_newState_old s1 hjlen, oE j hj hji]
            · intro hwf
              exact aF (WfArena_newState s1 (oF hwf))
                (by rw [newState_length]; omega)
            · intro x hx
              injection hx with hx2
              subst hx2
              refine ⟨by rw [aA, newState_length]; omega,
                Or.inr (by rw [oA]; omega),
                Or.inl (by rw [aA, newState_length])⟩
      · by_cases hty4 : ty = "cat"
        · rw [generateGraph, if_neg hty1, if_neg hty2, if_neg hty3,
            if_pos hty4] at h
          rcases genCat_ok fuel ps initial s r s' hinit h with
            ⟨cA, cB, cC, cD, cE, cF, cG⟩
          have hts : treeStates (.mk ty tx ps sb) = treeStatesL ps :=
            treeStates_cat ty tx ps sb hty1 hty2 hty3 hty4
          have htt : treeTrans (.mk ty tx ps sb) = treeTransL ps :=
            treeTrans_cat ty tx ps sb hty1 hty2 hty3 hty4
          exact ⟨by rw [cA, hts], by rw [cB, hts], by rw [cC, htt],
            by rw [cD, hts], cE, cF, cG⟩
        · by_cases hty5 : ty = "star" ∨ ty = "plus" ∨ ty = "optional"
          · rw [generateGraph, if_neg hty1, if_neg hty2, if_neg hty3,
              if_neg hty4, if_pos hty5] at h
            cases initial with
            | none => simp [jsAddNext, exBind] at h
            | some i =>
              have hi := hinit i rfl
              simp only [jsAddNext, exBind_ok, newState_fst] at h
              cases sb with
              | none => simp at h
              | some sub_node =>
                simp only [] at h
                cases hgg : generateGraph fuel sub_node
                    (some s.arena.length)
                    (addNextB (newState s).2 i epsSym s.arena.length) with
                | error m =>
                  rw [hgg, exBind_error] at h
                  exact Except.noConfusion h
                | ok q =>
                  obtain ⟨rX, s3⟩ := q
                  rw [hgg, exBind_ok] at h
                  simp only [] at h
                  have hts : treeStates (.mk ty tx ps (some sub_node)) =
                      2 + treeStates sub_node :=
                    treeStates_rep ty tx ps sub_node hty1 hty2 hty3 hty4
                      hty5
                  have hsub0 : ∀ hsubpack : GGOk sub_node
                      (some s.arena.length)
                      (addNextB (newState s).2 i epsSym s.arena.length)
                      rX s3, True := fun _ => trivial
                  cases rX with
                  | none =>
                    by_cases hsp : ty = "star" ∨ ty = "plus"
                    · rw [if_pos hsp] at h
                      simp [jsAddNext, exBind] at h
                    · rw [if_neg hsp, exBind_ok] at h
                      simp only [newState_fst] at h
                      simp [jsAddNext, exBind] at h
                  | some t =>
                    have hinit2 : ∀ x, some s.arena.length = some x →
                        x < (addNextB (newState s).2 i epsSym
                          s.arena.length).arena.length := by
                      intro x hx
                      injection hx with hx2
                      subst hx2
                      rw [addNextB_length, newState_length]
                      omega
                    have hsub := generateGraph_ok fuel sub_node
                      (some s.arena.length)
                      (addNextB (newState s).2 i epsSym s.arena.length)
                      (some t) s3 hinit2 hgg
                    by_cases hsp : ty = "star" ∨ ty = "plus"
                    · rw [if_pos hsp] at h
                      simp only [jsAddNext, exBind_ok, newState_fst] at h
                      by_cases hso : ty = "star" ∨ ty = "optional"
                      · rw [if_pos hso] at h
                        simp only [jsAddNext, exBind_ok, Except.ok.injEq,
                          Prod.mk.injEq] at h
                        obtain ⟨hr, hs'⟩ := h
                        subst hs'
                        subst hr
                        have hsc := starCommon true true sub_node i t s s3
                          hsub hi
                        simp only [reduceIte, Bool.false_eq_true, if_false] at hsc
                        obtain ⟨scC, scA, scB, scD, scE, scF, scL1, scL2,
                          scL3⟩ := hsc
                        have htt : treeTrans (.mk ty tx ps (some sub_node))
                            = treeTrans sub_node + 2 + 1 + 1 := by
                          rw [treeTrans_rep ty tx ps sub_node hty1 hty2
                            hty3 hty4 hty5, if_pos hsp, if_pos hso]
                        refine ⟨?_, ?_, ?_, ?_, ?_, ?_, ?_⟩
                        · rw [scA, hts]
                        · rw [scB, hts]
                        · rw [scC, htt]
                          try omega
                        · rw [scD, hts]
                        · intro j hj hji
                          exact scE j hj (fun he => hji (by rw [he]))
                        · exact scF
                        · intro x hx
                          injection hx with hx2
                          subst hx2
                          exact ⟨scL1, Or.inr scL2, Or.inl scL3⟩
                      · rw [if_neg hso] at h
                        simp only [Except.ok.injEq, Prod.mk.injEq] at h
                        obtain ⟨hr, hs'⟩ := h
                        subst hs'
                        subst hr
                        have hsc := starCommon true false sub_node i t s s3
                          hsub hi
                        simp only [reduceIte, Bool.false_eq_true, if_false] at hsc
                        obtain ⟨scC, scA, scB, scD, scE, scF, scL1, scL2,
                          scL3⟩ := hsc
                        have htt : treeTrans (.mk ty tx ps (some sub_node))
                            = treeTrans sub_node + 2 + 1 := by
                          rw [treeTrans_rep ty tx ps sub_node hty1 hty2
                            hty3 hty4 hty5, if_pos hsp, if_neg hso]
                        refine ⟨?_, ?_, ?_, ?_, ?_, ?_, ?_⟩
                        · rw [scA, hts]
                        · rw [scB, hts]
                        · rw [scC, htt]
                          try omega
                        · rw [scD, hts]
                        · intro j hj hji
                          exact scE j hj (fun he => hji (by rw [he]))
                        · exact scF
                        · intro x hx
                          injection hx with hx2
                          subst hx2
                          exact ⟨scL1, Or.inr scL2, Or.inl scL3⟩
                    · have hso : ty = "star" ∨ ty = "optional" := by
                        rcases hty5 with h5 | h5 | h5
                        · exact Or.inl h5
                        · exact absurd (Or.inr h5) hsp
                        · exact Or.inr h5
                      rw [if_neg hsp, exBind_ok] at h
                      simp only [jsAddNext, exBind_ok, newState_fst] at h
                      rw [if_pos hso] at h
                      simp only [jsAddNext, exBind_ok, Except.ok.injEq,
                        Prod.mk.injEq] at h
                      obtain ⟨hr, hs'⟩ := h
                      subst hs'
                      subst hr
                      have hsc := starCommon false true sub_node i t s s3
                        hsub hi
                      simp only [reduceIte, Bool.false_eq_true, if_false] at hsc
                      obtain ⟨scC, scA, scB, scD, scE, scF, scL1, scL2,
                        scL3⟩ := hsc
                      have htt : treeTrans (.mk ty tx ps (some sub_node))
                          = treeTrans sub_node + 2 + 1 := by
                        rw [treeTrans_rep ty tx ps sub_node hty1 hty2
                          hty3 hty4 hty5, if_neg hsp, if_pos hso]
                      refine ⟨?_, ?_, ?_, ?_, ?_, ?_, ?_⟩
                      · rw [scA, hts]
                      · rw [scB, hts]
                      · rw [scC, htt]
                        try omega
                      · rw [scD, hts]
                      · intro j hj hji
                        exact scE j hj (fun he => hji (by rw [he]))
                      · exact scF
                      · intro x hx
                        injection hx with hx2
                        subst hx2
                        exact ⟨scL1, Or.inr scL2, Or.inl scL3⟩
          · rw [generateGraph, if_neg hty1, if_neg hty2, if_neg hty3,
              if_neg hty4, if_neg hty5] at h
            simp only [Except.ok.injEq, Prod.mk.injEq] at h
            obtain ⟨hr, hs⟩ := h
            subst hs
            subst hr
            have hts : treeStates (.mk ty tx ps sb) = 0 :=
              treeStates_unknown ty tx ps sb hty1 hty2 hty3 hty4 hty5
            have htt : treeTrans (.mk ty tx ps sb) = 0 :=
              treeTrans_unknown ty tx ps sb hty1 hty2 hty3 hty4 hty5
            refine ⟨by rw [hts]; omega, by rw [hts]; omega,
              by rw [htt]; omega, ?_, fun j _ _ => rfl, fun hwf => hwf, ?_⟩
            · rw [hts]
              simp
            · intro x hx
              exact Option.noConfusion hx

theorem genOr_ok (fuel : Nat) (parts : List SyntaxTreeNode)
    (initial : Option Nat) (s : BuildState) (lst : List (Option Nat))
    (s' : BuildState)
    (hinit : ∀ x, initial = some x → x < s.arena.length)
    (h : genOr fuel parts initial s = .ok (lst, s')) :
    GenOrOk parts initial s lst s' := by
  match fuel with
  | 0 => simp [genOr] at h
  | fuel + 1 =>
  cases parts with
  | nil =>
    rw [genOr] at h
    simp only [Except.ok.injEq, Prod.mk.injEq] at h
    obtain ⟨hl, hs⟩ := h
    subst hs
    subst hl
    refine ⟨by rw [treeStatesL_nil]; simp, by rw [treeStatesL_nil]; simp,
      by rw [treeTransL_nil]; simp, by rw [treeStatesL_nil]; simp,
      fun j _ _ => rfl, fun hwf => hwf, by simp, ?_⟩
    intro o ho
    cases ho
  | cons p rest =>
    cases initial with
    | none =>
      rw [genOr] at h
      simp [jsAddNext, exBind] at h
    | some i =>
      have hi := hinit i rfl
      rw [genOr] at h
      simp only [jsAddNext, exBind_ok, newState_fst] at h
      cases hgg : generateGraph fuel p (some s.arena.length)
          (addNextB (newState s).2 i epsSym s.arena.length) with
      | error m =>
        rw [hgg, exBind_error] at h
        exact Except.noConfusion h
      | ok q =>
        obtain ⟨r1, s3⟩ := q
        rw [hgg, exBind_ok] at h
        simp only [] at h
        cases hrest : genOr fuel rest (some i) s3 with
        | error m =>
          rw [hrest, exBind_error] at h
          exact Except.noConfusion h
        | ok q2 =>
          obtain ⟨lst2, s4⟩ := q2
          rw [hrest, exBind_ok] at h
          simp only [Except.ok.injEq, Prod.mk.injEq] at h
          obtain ⟨hl, hs4⟩ := h
          subst hs4
          subst hl
          have hinit2 : ∀ x, some s.arena.length = some x →
              x < (addNextB (newState s).2 i epsSym
                s.arena.length).arena.length := by
            intro x hx
            injection hx with hx2
            subst hx2
            rw [addNextB_length, newState_length]
            omega
          rcases generateGraph_ok fuel p (some s.arena.length)
            (addNextB (newState s).2 i epsSym s.arena.length) r1 s3
            hinit2 hgg with ⟨pA, pB, pC, pD, pE, pF, pG⟩
          have hs2len : (addNextB (newState s).2 i epsSym
              s.arena.length).arena.length = s.arena.length + 1 := by
            rw [addNextB_length, newState_length]
          have hs2lab : (addNextB (newState s).2 i epsSym
              s.arena.length).label = s.label + 1 := by
            rw [addNextB_label, newState_label]
          have hs3len : s3.arena.length =
              s.arena.length + 1 + treeStates p := by
            rw [pA, hs2len]
          have hinit3 : ∀ x, some i = some x → x < s3.arena.length := by
            intro x hx
            injection hx with hx2
            subst hx2
            rw [hs3len]
            omega
          rcases genOr_ok fuel rest (some i) s3 lst2 s4 hinit3 hrest with
            ⟨oA, oB, oC, oD, oE, oF, oLen, oMem⟩
          have hs2edges : totalEdges (addNextB (newState s).2 i epsSym
              s.arena.length).arena = totalEdges s.arena + 1 := by
            rw [@totalEdges_addNextB (newState s).2 epsSym s.arena.length i
              (by rw [newState_length]; omega), totalEdges_newState]
          have hs2labels : labelsOf (addNextB (newState s).2 i epsSym
              s.arena.length).arena = labelsOf s.arena ++ [s.label + 1] := by
            rw [labelsOf_addNextB, labelsOf_newState]
          have htsL : treeStatesL (p :: rest) =
              treeStates p + treeStatesL rest := treeStatesL_cons p rest
          have httL : treeTransL (p :: rest) =
              treeTrans p + treeTransL rest := treeTransL_cons p rest
          refine ⟨?_, ?_, ?_, ?_, ?_, ?_, ?_, ?_⟩
          · rw [oA, pA, hs2len, htsL]
            simp only [List.length_cons]
            omega
          · rw [oB, pB, hs2lab, htsL]
            simp only [List.length_cons]
            omega
          · rw [oC, pC, hs2edges, httL]
            simp only [List.length_cons]
            omega
          · have hcnt : (p :: rest).length + treeStatesL (p :: rest) =
                1 + treeStates p + (rest.length + treeStatesL rest) := by
              rw [htsL]
              simp only [List.length_cons]
              omega
            rw [oD, pD, hs2labels, pB, hs2lab, List.append_assoc,
              List.append_assoc, hcnt,
              ← label_chain s.label (treeStates p)
                (rest.length + treeStatesL rest)]
          · intro j hj hji
            have hne : j ≠ i := fun he => hji (by rw [he])
            rw [oE j (by rw [hs3len]; omega) hji,
              pE j (by rw [hs2len]; omega)
                (by intro hcx; injection hcx with hcx2; omega),
              nextAt_addNextB_ne _ epsSym s.arena.length hne,
              nextAt_newState_old s hj]
          · intro hwf
            refine oF (pF ?_)
            refine WfArena_addNextB _ epsSym s.arena.length i
              (WfArena_newState s hwf) ?_
            rw [newState_length]
            omega
          · simp only [List.length_cons, oLen]
          · intro o ho x hox
            subst hox
            rcases List.mem_cons.mp ho with hcase | hcase
            · subst hcase
              rcases pG x rfl with ⟨hlt, hor, _⟩
              constructor
              · rcases hor with h2 | h2
                · injection h2 with h3
                  omega
                · rw [hs2len] at h2
                  omega
              · have : s3.arena.length ≤ s4.arena.length := by
                  rw [oA]
                  omega
                omega
            · rcases oMem (some x) hcase x rfl with ⟨hge, hlt⟩
              constructor
              · rw [hs3len] at hge
                omega
              · exact hlt

theorem genCat_ok (fuel : Nat) (parts : List SyntaxTreeNode)
    (prev : Option Nat) (s : BuildState) (r : Option Nat) (s' : BuildState)
    (hinit : ∀ x, prev = some x → x < s.arena.length)
    (h : genCat fuel parts prev s = .ok (r, s')) :
    GenCatOk parts prev s r s' := by
  match fuel with
  | 0 => simp [genCat] at h
  | fuel + 1 =>
  cases parts with
  | nil =>
    rw [genCat] at h
    simp only [Except.ok.injEq, Prod.mk.injEq] at h
    obtain ⟨hr, hs⟩ := h
    subst hs
    subst hr
    refine ⟨by rw [treeStatesL_nil]; simp, by rw [treeStatesL_nil]; simp,
      by rw [treeTransL_nil]; simp, by rw [treeStatesL_nil]; simp,
      fun j _ _ => rfl, fun hwf => hwf, ?_⟩
    intro x hx
    exact ⟨hinit x hx, Or.inl hx.symm, Or.inr ⟨rfl, hx.symm⟩⟩
  | cons p rest =>
    rw [genCat] at h
    cases hgg : generateGraph fuel p prev s with
    | error m =>
      rw [hgg, exBind_error] at h
      exact Except.noConfusion h
    | ok q =>
      obtain ⟨r1, s1⟩ := q
      rw [hgg, exBind_ok] at h
      rcases generateGraph_ok fuel p prev s r1 s1 hinit hgg with
        ⟨pA, pB, pC, pD, pE, pF, pG⟩
      have hinit2 : ∀ x, r1 = some x → x < s1.arena.length := by
        intro x hx
        exact (pG x hx).1
      rcases genCat_ok fuel rest r1 s1 r s' hinit2 h with
        ⟨cA, cB, cC, cD, cE, cF, cG⟩
      have htsL : treeStatesL (p :: rest) =
          treeStates p + treeStatesL rest := treeStatesL_cons p rest
      have httL : treeTransL (p :: rest) =
          treeTrans p + treeTransL rest := treeTransL_cons p rest
      refine ⟨?_, ?_, ?_, ?_, ?_, ?_, ?_⟩
      · rw [cA, pA, htsL]
        omega
      · rw [cB, pB, htsL]
        omega
      · rw [cC, pC, httL]
        omega
      · rw [cD, pD, pB, htsL, List.append_assoc,
          range_map_comp s.label (treeStates p) (treeStatesL rest)]
      · intro j hj hji
        have hjs1 : j < s1.arena.length := by
          rw [pA]
          omega
        have hjr1 : some j ≠ r1 := by
          intro he
          rcases pG j he.symm with ⟨_, hor, _⟩
          rcases hor with h2 | h2
          · exact hji (by rw [← h2])
          · omega
        rw [cE j hjs1 hjr1, pE j hj hji]
      · intro hwf
        exact cF (pF hwf)
      · intro x hx
        rcases cG x hx with ⟨hlt, hor, hlast⟩
        refine ⟨hlt, ?_, ?_⟩
        · rcases hor with h2 | h2
          · rcases pG x h2.symm with ⟨_, hor2, _⟩
            rcases hor2 with h3 | h3
            · exact Or.inl h3
            · exact Or.inr h3
          · refine Or.inr ?_
            have : s.arena.length ≤ s1.arena.length := by
              rw [pA]
              omega
            omega
        · rcases hlast with h2 | ⟨h2a, h2b⟩
          · exact Or.inl h2
          · rcases pG x h2b.symm with ⟨_, _, hor3⟩
            rcases hor3 with h3 | ⟨h3a, h3b⟩
            · exact Or.inl (by rw [← h2a] at h3; exact h3)
            · exact Or.inr ⟨by omega, h3b⟩
end

theorem treeSize_mk (ty : String) (tx : Option String)
    (ps : List SyntaxTreeNode) (sb : Option SyntaxTreeNode) :
    treeSize (.mk ty tx ps sb) = 1 + treeSizeL ps +
      (match sb with | none => 0 | some t => treeSize t + 1) := by
  rw [treeSize.eq_def]

theorem treeSizeL_nil : treeSizeL [] = 1 := by
  rw [treeSizeL.eq_def]

theorem treeSizeL_cons (t : SyntaxTreeNode) (ts : List SyntaxTreeNode) :
    treeSizeL (t :: ts) = 1 + treeSize t + treeSizeL ts := by
  rw [treeSizeL.eq_def]

theorem treeSize_pos (st : SyntaxTreeNode) : 1 ≤ treeSize st := by
  obtain ⟨ty, tx, ps, sb⟩ := st
  rw [treeSize_mk]
  omega

theorem treeSizeL_pos (ts : List SyntaxTreeNode) : 1 ≤ treeSizeL ts := by
  cases ts with
  | nil => rw [treeSizeL_nil]
  | cons t ts =>
    rw [treeSizeL_cons]
    omega

theorem addAll_error (lst : List (Option Nat)) (acc : Nat) (s : BuildState)
    (m : String) (h : addAll lst acc s = .error m) :
    m = "TypeError: cannot read addNext of undefined" := by
  induction lst generalizing s with
  | nil => simp [addAll] at h
  | cons o rest ih =>
    match o with
    | none =>
      simp only [addAll, jsAddNext, exBind_error, Except.error.injEq] at h
      exact h.symm
    | some i =>
      simp only [addAll, jsAddNext, exBind_ok] at h
      exact ih _ h

mutual

theorem generateGraph_no_fuel (fuel : Nat) (st : SyntaxTreeNode)
    (initial : Option Nat) (s : BuildState) (hf : treeSize st < fuel) :
    ∀ m, generateGraph fuel st initial s = .error m → m ≠ fuelMsg := by
  match fuel with
  | 0 => exact absurd hf (Nat.not_lt_zero _)
  | fuel + 1 =>
  intro m h
  obtain ⟨ty, tx, ps, sb⟩ := st
  rw [treeSize_mk] at hf
  by_cases hty1 : ty = "empty"
  · rw [generateGraph, if_pos hty1] at h
    cases initial with
    | none =>
      simp only [jsAddNext, exBind_error, Except.error.injEq] at h
      subst h
      decide
    | some i =>
      simp only [jsAddNext, exBind_ok] at h
      exact Except.noConfusion h
  · by_cases hty2 : ty = "text"
    · rw [generateGraph, if_neg hty1, if_pos hty2] at h
      cases initial with
      | none =>
        simp only [jsAddNext, exBind_error, Except.error.injEq] at h
        subst h
        decide
      | some i =>
        simp only [jsAddNext, exBind_ok] at h
        exact Except.noConfusion h
    · by_cases hty3 : ty = "or"
      · rw [generateGraph, if_neg hty1, if_neg hty2, if_pos hty3] at h
        cases hgo : genOr fuel ps initial s with
        | error m0 =>
          rw [hgo, exBind_error] at h
          injection h with h2
          rw [← h2]
          exact genOr_no_fuel fuel ps initial s (by omega) m0 hgo
        | ok p =>
          rw [hgo, exBind_ok] at h
          simp only [newState_fst, exBind_ok] at h
          cases haa : addAll p.1 p.2.arena.length (newState p.2).2 with
          | error m0 =>
            rw [haa, exBind_error] at h
            injection h with h2
            rw [← h2, addAll_error p.1 p.2.arena.length (newState p.2).2
              m0 haa]
            decide
          | ok s3 =>
            rw [haa, exBind_ok] at h
            exact Except.noConfusion h
      · by_cases hty4 : ty = "cat"
        · rw [generateGraph, if_neg hty1, if_neg hty2, if_neg hty3,
            if_pos hty4] at h
          exact genCat_no_fuel fuel ps initial s (by omega) m h
        · by_cases hty5 : ty = "star" ∨ ty = "plus" ∨ ty = "optional"
          · rw [generateGraph, if_neg hty1, if_neg hty2, if_neg hty3,
              if_neg hty4, if_pos hty5] at h
            cases initial with
            | none =>
              simp only [jsAddNext, exBind_error, Except.error.injEq] at h
              subst h
              decide
            | some i =>
              simp only [jsAddNext, exBind_ok, newState_fst] at h
              cases sb with
              | none =>
                simp only [Except.error.injEq] at h
                subst h
                decide
              | some sub_node =>
                simp only [] at h hf
                cases hgg : generateGraph fuel sub_node
                    (some s.arena.length)
                    (addNextB (newState s).2 i epsSym s.arena.length) with
                | error m0 =>
                  rw [hgg, exBind_error] at h
                  injection h with h2
                  rw [← h2]
                  exact generateGraph_no_fuel fuel sub_node
                    (some s.arena.length) _ (by omega) m0 hgg
                | ok q =>
                  obtain ⟨rX, s3⟩ := q
                  rw [hgg, exBind_ok] at h
                  simp only [] at h
                  cases rX with
                  | none =>
                    by_cases hsp : ty = "star" ∨ ty = "plus"
                    · rw [if_pos hsp] at h
                      simp only [jsAddNext, exBind_error,
                        Except.error.injEq] at h
                      subst h
                      decide
                    · rw [if_neg hsp, exBind_ok] at h
                      simp only [newState_fst, jsAddNext, exBind_error,
                        Except.error.injEq] at h
                      subst h
                      decide
                  | some t =>
                    by_cases hsp : ty = "star" ∨ ty = "plus"
                    · rw [if_pos hsp] at h
                      simp only [jsAddNext, exBind_ok, newState_fst] at h
                      by_cases hso : ty = "star" ∨ ty = "optional"
                      · rw [if_pos hso] at h
                        try simp only [jsAddNext, exBind_ok] at h
                        exact Except.noConfusion h
                      · rw [if_neg hso] at h
                        exact Except.noConfusion h
                    · rw [if_neg hsp, exBind_ok] at h
                      simp only [jsAddNext, exBind_ok, newState_fst] at h
                      by_cases hso : ty = "star" ∨ ty = "optional"
                      · rw [if_pos hso] at h
                        try simp only [jsAddNext, exBind_ok] at h
                        exact Except.noConfusion h
                      · rw [if_neg hso] at h
                        exact Except.noConfusion h
          · rw [generateGraph, if_neg hty1, if_neg hty2, if_neg hty3,
              if_neg hty4, if_neg hty5] at h
            exact Except.noConfusion h

theorem genOr_no_fuel (fuel : Nat) (parts : List SyntaxTreeNode)
    (initial : Option Nat) (s : BuildState) (hf : treeSizeL parts < fuel) :
    ∀ m, genOr fuel parts initial s = .error m → m ≠ fuelMsg := by
  match fuel with
  | 0 => exact absurd hf (Nat.not_lt_zero _)
  | fuel + 1 =>
  intro m h
  cases parts with
  | nil =>
    rw [genOr] at h
    exact Except.noConfusion h
  | cons p rest =>
    rw [treeSizeL_cons] at hf
    have hp := treeSize_pos p
    have hr := treeSizeL_pos rest
    rw [genOr] at h
    cases initial with
    | none =>
      simp only [jsAddNext, exBind_error, Except.error.injEq] at h
      subst h
      decide
    | some i =>
      simp only [jsAddNext, exBind_ok, newState_fst] at h
      cases hgg : generateGraph fuel p (some s.arena.length)
          (addNextB (newState s).2 i epsSym s.arena.length) with
      | error m0 =>
        rw [hgg, exBind_error] at h
        injection h with h2
        rw [← h2]
        exact generateGraph_no_fuel fuel p (some s.arena.length) _
          (by omega) m0 hgg
      | ok q =>
        rw [hgg, exBind_ok] at h
        try simp only [] at h
        cases hrest : genOr fuel rest (some i) q.2 with
        | error m0 =>
          rw [hrest, exBind_error] at h
          injection h with h2
          rw [← h2]
          exact genOr_no_fuel fuel rest (some i) q.2 (by omega) m0 hrest
        | ok q2 =>
          rw [hrest, exBind_ok] at h
          exact Except.noConfusion h

theorem genCat_no_fuel (fuel : Nat) (parts : List SyntaxTreeNode)
    (prev : Option Nat) (s : BuildState) (hf : treeSizeL parts < fuel) :
    ∀ m, genCat fuel parts prev s = .error m → m ≠ fuelMsg := by
  match fuel with
  | 0 => exact absurd hf (Nat.not_lt_zero _)
  | fuel + 1 =>
  intro m h
  cases parts with
  | nil =>
    rw [genCat] at h
    exact Except.noConfusion h
  | cons p rest =>
    rw [treeSizeL_cons] at hf
    have hp := treeSize_pos p
    have hr := treeSizeL_pos rest
    rw [genCat] at h
    cases hgg : generateGraph fuel p prev s with
    | error m0 =>
      rw [hgg, exBind_error] at h
      injection h with h2
      rw [← h2]
      exact generateGraph_no_fuel fuel p prev s (by omega) m0 hgg
    | ok q =>
      rw [hgg, exBind_ok] at h
      exact genCat_no_fuel fuel rest q.1 q.2 (by omega) m h

end

/-- The recursion-depth bound chosen by `buildFromTree` is provably never
exhausted: the artificial fuel error cannot be the outcome of a build. -/
theorem buildFromTree_no_fuel_error (st : SyntaxTreeNode) :
    buildFromTree st ≠ .error fuelMsg := by
  intro h
  rw [buildFromTree] at h
  try simp only [] at h
  cases hgg : generateGraph (treeSize st + 1) st (some 0) ⟨[⟨0, []⟩], 0⟩ with
  | error m =>
    rw [hgg, exBind_error] at h
    injection h with h2
    exact generateGraph_no_fuel (treeSize st + 1) st (some 0) _
      (Nat.lt_succ_self _) m hgg h2
  | ok q =>
    rw [hgg, exBind_ok] at h
    exact Except.noConfusion h

/-- The initial `BuildState` of `NFA.build`: the global initial state,
labeled `0`, allocated without incrementing the counter. -/
def initBuild : BuildState := ⟨[⟨0, []⟩], 0⟩

theorem buildFromTree_ok (st : SyntaxTreeNode)
    (p : (Nat × Option Nat) × BuildState)
    (h : buildFromTree st = .ok p) :
    p.1.1 = 0 ∧ GGOk st (some 0) initBuild p.1.2 p.2 := by
  rw [buildFromTree] at h
  try simp only [] at h
  cases hgg : generateGraph (treeSize st + 1) st (some 0)
      ⟨[⟨0, []⟩], 0⟩ with
  | error m =>
    rw [hgg, exBind_error] at h
    exact Except.noConfusion h
  | ok q =>
    rw [hgg, exBind_ok] at h
    simp only [Except.ok.injEq] at h
    subst h
    refine ⟨rfl, ?_⟩
    exact generateGraph_ok (treeSize st + 1) st (some 0) initBuild q.1 q.2
      (by intro x hx; injection hx with hx2; subst hx2; decide) hgg

theorem labelAt_eq_of_range (a : Arena)
    (hl : labelsOf a = List.range a.length) {j : Nat} (hj : j < a.length) :
    labelAt a j = j := by
  have h1 : (labelsOf a).get? j = (a.get? j).map StateData.label := by
    unfold labelsOf
    exact List.get?_map _ _ _
  rw [hl, List.get?_range hj] at h1
  unfold labelAt
  rw [← h1]
  rfl

theorem range_shift (n : Nat) :
    [0] ++ (List.range n).map (fun k => 0 + 1 + k) = List.range (n + 1) := by
  have h0 : [0] = (List.range 1).map (fun k => 0 + k) := by
    rfl
  rw [h0]
  have h1 : (List.range n).map (fun k => 0 + 1 + k) =
      (List.range n).map (fun k => 0 + (1 + k)) := by
    refine List.map_congr_left ?_
    intro k _
    omega
  have h2 : (List.range 1).map (fun k => 0 + k) ++
      (List.range n).map (fun k => 0 + (1 + k)) =
      (List.range (1 + n)).map (fun k => 0 + k) := by
    rw [List.range_add, List.map_append, List.map_map]
    congr 1
  rw [h1, h2]
  have h3 : (List.range (1 + n)).map (fun k => 0 + k) =
      List.range (1 + n) := by
    have h4 : (List.range (1 + n)).map (fun k => 0 + k) =
        (List.range (1 + n)).map id :=
      List.map_congr_left (fun k _ => Nat.zero_add k)
    rw [h4, List.map_id]
  rw [h3, Nat.add_comm]

theorem buildFromTree_labels (st : SyntaxTreeNode)
    (p : (Nat × Option Nat) × BuildState) (h : buildFromTree st = .ok p) :
    labelsOf p.2.arena = List.range p.2.arena.length := by
  rcases buildFromTree_ok st p h with ⟨_, hA, _, _, hD, _⟩
  have hlen : p.2.arena.length = 1 + treeStates st := hA
  have : labelsOf p.2.arena =
      [0] ++ (List.range (treeStates st)).map (fun k => 0 + 1 + k) := hD
  rw [this, range_shift, hlen, Nat.add_comm]

/-! ## Claim theorems -/

/-- C1: for every input syntax tree, the labels of all states allocated
during one build are pairwise distinct non-negative integers, strictly
increasing in allocation order (= arena order), starting at 0 for the
global initial state (which is also the returned initial state). -/
theorem c1_label_uniqueness (st : SyntaxTreeNode)
    (p : (Nat × Option Nat) × BuildState) (h : buildFromTree st = .ok p) :
    labelsOf p.2.arena = List.range p.2.arena.length ∧
    (labelsOf p.2.arena).Pairwise (· < ·) ∧
    p.1.1 = 0 ∧ labelAt p.2.arena 0 = 0 := by
  have hl := buildFromTree_labels st p h
  rcases buildFromTree_ok st p h with ⟨hinit0, hA, _⟩
  refine ⟨hl, ?_, hinit0, ?_⟩
  · rw [hl]
    exact List.pairwise_lt_range _
  · refine labelAt_eq_of_range _ hl ?_
    rw [hA]
    show 0 < 1 + treeStates st
    omega

/-- Concrete instance of C1 at the tree `text("a")`. -/
def demoTextTree : SyntaxTreeNode := .mk "text" (some "a") [] none

/-- The build state produced for `text("a")`. -/
def demoTextBuild : BuildState := ⟨[⟨0, [⟨some "a", 1⟩]⟩, ⟨1, []⟩], 1⟩

theorem c1_label_uniqueness_witness :
    labelsOf demoTextBuild.arena = List.range demoTextBuild.arena.length ∧
    (labelsOf demoTextBuild.arena).Pairwise (· < ·) ∧
    (((0 : Nat), some (1 : Nat)), demoTextBuild).1.1 = 0 ∧
    labelAt demoTextBuild.arena 0 = 0 :=
  c1_label_uniqueness demoTextTree ((0, some 1), demoTextBuild) (by rfl)

/-- C9: the accept state returned by a successful build is the last
allocated state: its label is one less than the number of allocated
states, and no allocated state carries a larger label. -/
theorem c9_accept_is_last (st : SyntaxTreeNode) (acc : Nat)
    (s' : BuildState) (h : buildFromTree st = .ok ((0, some acc), s')) :
    labelAt s'.arena acc + 1 = s'.arena.length ∧
    ∀ j, j < s'.arena.length → labelAt s'.arena j ≤ labelAt s'.arena acc := by
  have hl := buildFromTree_labels st ((0, some acc), s') h
  rcases buildFromTree_ok st ((0, some acc), s') h with ⟨_, hA, _, _, _, _, _, hG⟩
  rcases hG acc rfl with ⟨hlt, _, hlast⟩
  have hacc : labelAt s'.arena acc = acc := labelAt_eq_of_range _ hl hlt
  have hlen1 : initBuild.arena.length = 1 := rfl
  have haccval : acc + 1 = s'.arena.length := by
    rcases hlast with h2 | ⟨h2a, h2b⟩
    · exact h2
    · injection h2b with h3
      rw [h2a, hlen1]
      omega
  refine ⟨by rw [hacc]; exact haccval, ?_⟩
  intro j hj
  rw [hacc, labelAt_eq_of_range _ hl hj]
  omega

theorem c9_accept_is_last_witness :
    labelAt demoTextBuild.arena 1 + 1 = demoTextBuild.arena.length ∧
    ∀ j, j < demoTextBuild.arena.length →
      labelAt demoTextBuild.arena j ≤ labelAt demoTextBuild.arena 1 :=
  c9_accept_is_last demoTextTree 1 demoTextBuild (by rfl)

/-- C6: building `or([X, Y])` allocates exactly three more states than
the two sub-builds allocate together (the two entry states and the
shared accept state) and adds exactly four more transitions (the two
epsilon transitions into the entries and the two epsilon transitions
from the collected accept states to the shared accept state).  State and
transition counts of a run are measured as the growth of the arena, so
the externally supplied initial state of a run is not counted. -/
theorem c6_or_size_law (fX fY f : Nat) (X Y : SyntaxTreeNode)
    (tx : Option String) (sb : Option SyntaxTreeNode)
    (iX iY i : Option Nat) (sX sY s : BuildState)
    (rX rY r : Option Nat) (sX' sY' s' : BuildState)
    (hiX : ∀ x, iX = some x → x < sX.arena.length)
    (hiY : ∀ x, iY = some x → x < sY.arena.length)
    (hi : ∀ x, i = some x → x < s.arena.length)
    (hX : generateGraph fX X iX sX = .ok (rX, sX'))
    (hY : generateGraph fY Y iY sY = .ok (rY, sY'))
    (hOr : generateGraph f (.mk "or" tx [X, Y] sb) i s = .ok (r, s')) :
    s'.arena.length + sX.arena.length + sY.arena.length =
      s.arena.length + sX'.arena.length + sY'.arena.length + 3 ∧
    totalEdges s'.arena + totalEdges sX.arena + totalEdges sY.arena =
      totalEdges s.arena + totalEdges sX'.arena + totalEdges sY'.arena
        + 4 := by
  rcases generateGraph_ok fX X iX sX rX sX' hiX hX with ⟨xA, _, xC, _⟩
  rcases generateGraph_ok fY Y iY sY rY sY' hiY hY with ⟨yA, _, yC, _⟩
  rcases generateGraph_ok f (.mk "or" tx [X, Y] sb) i s r s' hi hOr with
    ⟨oA, _, oC, _⟩
  rw [treeStates_or "or" tx [X, Y] sb (by decide) (by decide) rfl] at oA
  rw [treeTrans_or "or" tx [X, Y] sb (by decide) (by decide) rfl] at oC
  rw [treeStatesL_cons, treeStatesL_cons, treeStatesL_nil] at oA
  rw [treeTransL_cons, treeTransL_cons, treeTransL_nil] at oC
  simp only [List.length_cons, List.length_nil] at oA oC
  constructor
  · rw [oA, xA, yA]
    omega
  · rw [oC, xC, yC]
    omega

/-- The tree `empty`. -/
def demoEmptyTree : SyntaxTreeNode := .mk "empty" none [] none

theorem c6_or_size_law_witness :
    ((⟨[⟨0, [⟨epsSym, 1⟩, ⟨epsSym, 3⟩]⟩, ⟨1, [⟨epsSym, 2⟩]⟩,
        ⟨2, [⟨epsSym, 5⟩]⟩, ⟨3, [⟨epsSym, 4⟩]⟩, ⟨4, [⟨epsSym, 5⟩]⟩,
        ⟨5, []⟩], 5⟩ : BuildState).arena.length +
      initBuild.arena.length + initBuild.arena.length =
      initBuild.arena.length +
        (⟨[⟨0, [⟨epsSym, 1⟩]⟩, ⟨1, []⟩], 1⟩ : BuildState).arena.length +
        (⟨[⟨0, [⟨epsSym, 1⟩]⟩, ⟨1, []⟩], 1⟩ : BuildState).arena.length
        + 3) ∧
    totalEdges (⟨[⟨0, [⟨epsSym, 1⟩, ⟨epsSym, 3⟩]⟩, ⟨1, [⟨epsSym, 2⟩]⟩,
        ⟨2, [⟨epsSym, 5⟩]⟩, ⟨3, [⟨epsSym, 4⟩]⟩, ⟨4, [⟨epsSym, 5⟩]⟩,
        ⟨5, []⟩], 5⟩ : BuildState).arena +
      totalEdges initBuild.arena + totalEdges initBuild.arena =
      totalEdges initBuild.arena +
        totalEdges (⟨[⟨0, [⟨epsSym, 1⟩]⟩, ⟨1, []⟩], 1⟩ : BuildState).arena +
        totalEdges (⟨[⟨0, [⟨epsSym, 1⟩]⟩, ⟨1, []⟩], 1⟩ : BuildState).arena
        + 4 :=
  c6_or_size_law 1 1 4 demoEmptyTree demoEmptyTree none none
    (some 0) (some 0) (some 0) initBuild initBuild initBuild
    (some 1) (some 1) (some 5) _ _ _
    (by intro x hx; injection hx with hx2; subst hx2; decide)
    (by intro x hx; injection hx with hx2; subst hx2; decide)
    (by intro x hx; injection hx with hx2; subst hx2; decide)
    (by rfl) (by rfl) (by rfl)

/-- An unrecognized node kind does not raise an error: the whole build
succeeds and hands back the JS `undefined` as accept state. -/
theorem c2_counterexample :
    buildFromTree (.mk "bogus" none [] none) = .ok ((0, none), initBuild) ∧
    ∀ m, buildFromTree (.mk "bogus" none [] none) ≠ .error m := by
  refine ⟨rfl, ?_⟩
  intro m h
  have h2 : (Except.error m :
      Except String ((Nat × Option Nat) × BuildState)) =
      .ok ((0, none), initBuild) := h.symm.trans rfl
  exact Except.noConfusion h2

/-- C2 (amended): on a node whose kind is none of the seven handled
kinds, the recursive builder falls through the `switch` without raising
any error and silently returns the JS `undefined` (here `none`) with the
build state untouched; it does not fail with a structural error. -/
theorem c2_unknown_kind_is_silent (fuel : Nat) (ty : String)
    (tx : Option String) (ps : List SyntaxTreeNode)
    (sb : Option SyntaxTreeNode) (initial : Option Nat) (s : BuildState)
    (h1 : ¬ ty = "empty") (h2 : ¬ ty = "text") (h3 : ¬ ty = "or")
    (h4 : ¬ ty = "cat")
    (h5 : ¬ (ty = "star" ∨ ty = "plus" ∨ ty = "optional")) :
    generateGraph (fuel + 1) (.mk ty tx ps sb) initial s =
      .ok (none, s) := by
  rw [generateGraph]
  simp only []
  rw [if_neg h1, if_neg h2, if_neg h3, if_neg h4, if_neg h5]

theorem c2_unknown_kind_is_silent_witness :
    (¬ ("bogus" : String) = "empty") ∧ (¬ ("bogus" : String) = "text") ∧
    (¬ ("bogus" : String) = "or") ∧ (¬ ("bogus" : String) = "cat") ∧
    (¬ (("bogus" : String) = "star" ∨ ("bogus" : String) = "plus" ∨
      ("bogus" : String) = "optional")) ∧
    generateGraph 1 (.mk "bogus" none [] none) (some 0) initBuild =
      .ok (none, initBuild) :=
  ⟨by decide, by decide, by decide, by decide, by decide,
    c2_unknown_kind_is_silent 0 "bogus" none [] none (some 0) initBuild
      (by decide) (by decide) (by decide) (by decide) (by decide)⟩

/-- A `text` node with no symbol does not raise: the build succeeds and
stores a transition whose symbol is the JS `undefined`. -/
theorem c3_counterexample :
    buildFromTree (.mk "text" none [] none) =
      .ok ((0, some 1), ⟨[⟨0, [⟨none, 1⟩]⟩, ⟨1, []⟩], 1⟩) ∧
    ∀ m, buildFromTree (.mk "text" none [] none) ≠ .error m := by
  refine ⟨rfl, ?_⟩
  intro m h
  have h2 : (Except.error m :
      Except String ((Nat × Option Nat) × BuildState)) =
      .ok ((0, some 1), ⟨[⟨0, [⟨none, 1⟩]⟩, ⟨1, []⟩], 1⟩) :=
    h.symm.trans rfl
  exact Except.noConfusion h2

/-- C3 (amended): of the malformed shapes, only a repetition node with a
missing sub-tree raises, and then only a generic `TypeError`, not an
error naming the missing field; `or` with an empty parts list succeeds
(allocating an unreachable accept state), `cat` with an empty parts list
succeeds returning its own initial state, and `text` with a missing
symbol succeeds, recording a transition labeled by the JS `undefined`. -/
theorem c3_malformed_nodes (fuel i : Nat) (tx : Option String)
    (ps : List SyntaxTreeNode) (sb : Option SyntaxTreeNode)
    (initial : Option Nat) (s : BuildState) :
    generateGraph (fuel + 2) (.mk "or" tx [] sb) initial s =
      .ok (some s.arena.length, (newState s).2) ∧
    generateGraph (fuel + 2) (.mk "cat" tx [] sb) initial s =
      .ok (initial, s) ∧
    generateGraph (fuel + 1) (.mk "text" none ps sb) (some i) s =
      .ok (some s.arena.length,
        addNextB (newState s).2 i none s.arena.length) ∧
    generateGraph (fuel + 1) (.mk "star" tx ps none) (some i) s =
      .error "TypeError: cannot read type of undefined" :=
  ⟨rfl, rfl, rfl, rfl⟩

/-- The tree `plus(empty)`. -/
def demoPlusEmptyTree : SyntaxTreeNode := .mk "plus" none [] (some demoEmptyTree)

/-- The build state produced for `plus(empty)`. -/
def demoPlusEmptyBuild : BuildState :=
  ⟨[⟨0, [⟨epsSym, 1⟩]⟩, ⟨1, [⟨epsSym, 2⟩]⟩,
    ⟨2, [⟨epsSym, 1⟩, ⟨epsSym, 3⟩]⟩, ⟨3, []⟩], 3⟩

/-- For `plus(empty)` the final accept state (state 3) IS in the
epsilon-closure of the construct's initial state, because the empty
sub-expression is traversed by epsilon transitions alone. -/
theorem c5_counterexample :
    buildFromTree demoPlusEmptyTree = .ok ((0, some 3), demoPlusEmptyBuild) ∧
    3 ∈ enclosure demoPlusEmptyBuild.arena [0] "ϵ" := by
  refine ⟨rfl, ?_⟩
  rw [mem_enclosure_iff]
  refine ⟨0, List.mem_singleton.mpr rfl, ?_⟩
  have h1 : Reach demoPlusEmptyBuild.arena "ϵ" 0 1 :=
    @Reach.tail demoPlusEmptyBuild.arena "ϵ" 0 0 ⟨epsSym, 1⟩
      (Reach.refl 0) (by decide) rfl
  have h2 : Reach demoPlusEmptyBuild.arena "ϵ" 0 2 :=
    @Reach.tail demoPlusEmptyBuild.arena "ϵ" 0 1 ⟨epsSym, 2⟩
      h1 (by decide) rfl
  exact @Reach.tail demoPlusEmptyBuild.arena "ϵ" 0 2 ⟨epsSym, 3⟩
    h2 (by decide) rfl

/-- The wiring performed after the recursive sub-build of a `plus`
node: a loop edge from the sub-accept `x` back to the entry `e0`, a
fresh accept state, and an epsilon edge from `x` into it.  The final
accept receives exactly one incoming edge, the epsilon edge from `x`,
and the transitions of any other state are untouched. -/
theorem plus_wire (q2 : BuildState) (i x e0 : Nat)
    (hxq : x < q2.arena.length) (he0 : e0 < q2.arena.length)
    (hiq : i < q2.arena.length) (hxi : x ≠ i)
    (hwfq : WfArena q2.arena) :
    nextAt (addNextB (newState (addNextB q2 x epsSym e0)).2 x epsSym
        (addNextB q2 x epsSym e0).arena.length).arena i =
      nextAt q2.arena i ∧
    ∀ j e, e ∈ nextAt (addNextB (newState (addNextB q2 x epsSym e0)).2 x
        epsSym (addNextB q2 x epsSym e0).arena.length).arena j →
      e.tgt = q2.arena.length → j = x ∧ e.symbol = epsSym := by
  have hlen4 : (addNextB q2 x epsSym e0).arena.length = q2.arena.length :=
    addNextB_length q2 x epsSym e0
  have hwf4 : WfArena (addNextB q2 x epsSym e0).arena :=
    WfArena_addNextB q2 epsSym e0 x hwfq he0
  have hOld : ∀ j e,
      e ∈ nextAt (newState (addNextB q2 x epsSym e0)).2.arena j →
      e.tgt < q2.arena.length := by
    intro j e he
    by_cases hj : j < (addNextB q2 x epsSym e0).arena.length
    · rw [nextAt_newState_old _ hj] at he
      have h2 := hwf4 j e he
      omega
    · by_cases hj2 : j = (addNextB q2 x epsSym e0).arena.length
      · rw [hj2, nextAt_newState_new] at he
        cases he
      · have h3 : (newState (addNextB q2 x epsSym e0)).2.arena.length
            ≤ j := by
          rw [newState_length]
          omega
        rw [nextAt_ge h3] at he
        cases he
  constructor
  · rw [nextAt_addNextB_ne _ _ _ (Ne.symm hxi)]
    rw [nextAt_newState_old _ (by omega)]
    rw [nextAt_addNextB_ne _ _ _ (Ne.symm hxi)]
  · intro j e he htgt
    by_cases hj : j = x
    · subst hj
      rw [nextAt_addNextB_self _ _ _ (by rw [newState_length]; omega)]
        at he
      rcases List.mem_append.mp he with h2 | h2
      · have h4 := hOld j e h2
        rw [htgt] at h4
        exact absurd h4 (lt_irrefl _)
      · have he2 := List.mem_singleton.mp h2
        exact ⟨rfl, by rw [he2]⟩
    · rw [nextAt_addNextB_ne _ _ _ hj] at he
      have h4 := hOld j e he
      rw [htgt] at h4
      exact absurd h4 (lt_irrefl _)

/-- C5 (amended): in the automaton built for `plus(X)` from a valid
initial state `i`, the epsilon-closure of `i` contains X's entry state;
there is no transition from `i` into the construct's final accept
state; and the only transition into the final accept state is the
epsilon transition from X's accept state — so the accept state is
reachable only through a traversal of X's sub-graph, but nothing
prevents that traversal from being an all-epsilon path, and the accept
state may well lie in the epsilon-closure of `i`. -/
theorem c5_plus_closure (f : Nat) (X : SyntaxTreeNode)
    (tx : Option String) (ps : List SyntaxTreeNode) (i x racc : Nat)
    (s q2 s2 : BuildState)
    (hi : i < s.arena.length) (hwf : WfArena s.arena)
    (hX : generateGraph f X (some s.arena.length)
        (addNextB (newState s).2 i epsSym s.arena.length) =
        .ok (some x, q2))
    (h : generateGraph (f + 1) (.mk "plus" tx ps (some X)) (some i) s =
        .ok (some racc, s2)) :
    s.arena.length ∈ enclosure s2.arena [i] "ϵ" ∧
    (∀ e, e ∈ nextAt s2.arena i → e.tgt ≠ racc) ∧
    (∀ j e, e ∈ nextAt s2.arena j → e.tgt = racc →
      j = x ∧ e.symbol = epsSym) := by
  have hn1 : ¬ ("plus" : String) = "empty" := by decide
  have hn2 : ¬ ("plus" : String) = "text" := by decide
  have hn3 : ¬ ("plus" : String) = "or" := by decide
  have hn4 : ¬ ("plus" : String) = "cat" := by decide
  have h5 : ("plus" : String) = "star" ∨ ("plus" : String) = "plus" ∨
      ("plus" : String) = "optional" := Or.inr (Or.inl rfl)
  have hsp : ("plus" : String) = "star" ∨ ("plus" : String) = "plus" :=
    Or.inr rfl
  have hso : ¬ (("plus" : String) = "star" ∨
      ("plus" : String) = "optional") := by decide
  rw [generateGraph, if_neg hn1, if_neg hn2, if_neg hn3, if_neg hn4,
    if_pos h5] at h
  simp only [jsAddNext, exBind_ok, newState_fst] at h
  try simp only [] at h
  rw [hX, exBind_ok] at h
  try simp only [] at h
  simp only [or_true, reduceIte] at h
  simp only [jsAddNext, exBind_ok, newState_fst] at h
  rw [if_neg hso] at h
  simp only [Except.ok.injEq, Prod.mk.injEq, Option.some.injEq] at h
  obtain ⟨hr, hs⟩ := h
  subst hr
  subst hs
  have hinit2 : ∀ y, some s.arena.length = some y →
      y < (addNextB (newState s).2 i epsSym s.arena.length).arena.length
      := by
    intro y hy
    injection hy with hy2
    subst hy2
    rw [addNextB_length, newState_length]
    omega
  have hp := generateGraph_ok f X (some s.arena.length)
    (addNextB (newState s).2 i epsSym s.arena.length) (some x) q2
    hinit2 hX
  obtain ⟨hpA, _, _, _, hpE, hpF, hpG⟩ := hp
  have hs2len : (addNextB (newState s).2 i epsSym
      s.arena.length).arena.length = s.arena.length + 1 := by
    rw [addNextB_length, newState_length]
  have hq2len : s.arena.length + 1 ≤ q2.arena.length := by
    rw [hpA, hs2len]
    omega
  obtain ⟨hxq, hxloc, _⟩ := hpG x rfl
  have hxgt : i < x := by
    rcases hxloc with hc | hc
    · injection hc with hc2
      omega
    · rw [hs2len] at hc
      omega
  have hxi : x ≠ i := by omega
  have hwfq : WfArena q2.arena := by
    refine hpF (WfArena_addNextB (newState s).2 epsSym s.arena.length i
      (WfArena_newState s hwf) ?_)
    rw [newState_length]
    omega
  have hmemq : (⟨epsSym, s.arena.length⟩ : Edge) ∈ nextAt q2.arena i := by
    rw [hpE i (by omega) (fun hc => by injection hc with hc2; omega)]
    rw [nextAt_addNextB_self _ _ _ (by rw [newState_length]; omega)]
    rw [nextAt_newState_old _ hi]
    exact List.mem_append.mpr (Or.inr (List.mem_singleton.mpr rfl))
  obtain ⟨hW1, hW3⟩ := plus_wire q2 i x s.arena.length hxq (by omega)
    (by omega) hxi hwfq
  refine ⟨?_, ?_, ?_⟩
  · rw [mem_enclosure_iff]
    refine ⟨i, List.mem_singleton.mpr rfl, ?_⟩
    exact @Reach.tail _ "ϵ" i i ⟨epsSym, s.arena.length⟩ (Reach.refl i)
      (by rw [hW1]; exact hmemq) rfl
  · intro e he htgt
    exact hxi ((hW3 i e he (htgt.trans (addNextB_length _ _ _ _))).1).symm
  · intro j e he htgt
    exact hW3 j e he (htgt.trans (addNextB_length _ _ _ _))

/-- The one-state initial arena is well-formed. -/
theorem wfInit : WfArena initBuild.arena := by
  intro j e he
  cases j with
  | zero => exact absurd he (List.not_mem_nil e)
  | succ k =>
    rw [nextAt_ge (Nat.succ_le_succ (Nat.zero_le k))] at he
    exact absurd he (List.not_mem_nil e)

/-- The build state produced for `plus(text("a"))`. -/
def demoPlusTextFinal : BuildState :=
  ⟨[⟨0, [⟨epsSym, 1⟩]⟩, ⟨1, [⟨some "a", 2⟩]⟩,
    ⟨2, [⟨epsSym, 1⟩, ⟨epsSym, 3⟩]⟩, ⟨3, []⟩], 3⟩

theorem c5_plus_closure_witness :
    0 < initBuild.arena.length ∧ WfArena initBuild.arena ∧
    (initBuild.arena.length ∈ enclosure demoPlusTextFinal.arena [0] "ϵ" ∧
    (∀ e, e ∈ nextAt demoPlusTextFinal.arena 0 → e.tgt ≠ 3) ∧
    (∀ j e, e ∈ nextAt demoPlusTextFinal.arena j → e.tgt = 3 →
      j = 2 ∧ e.symbol = epsSym)) :=
  ⟨by decide, wfInit,
    c5_plus_closure 1 demoTextTree none [] 0 2 3 initBuild
      ⟨[⟨0, [⟨epsSym, 1⟩]⟩, ⟨1, [⟨some "a", 2⟩]⟩, ⟨2, []⟩], 2⟩
      demoPlusTextFinal (by decide) wfInit (by rfl) (by rfl)⟩

/-- C7: the closure operation is idempotent and monotone, and its
result never contains duplicates: closing the closure of S adds
nothing, the closure of a subset T of S is contained in the closure of
S, and the closure of any input list is duplicate-free. -/
theorem c7_closure_algebra (a : Arena) (sym : String) (S T : List Nat)
    (hsub : ∀ t, t ∈ T → t ∈ S) :
    (∀ x, x ∈ enclosure a (enclosure a S sym) sym ↔
      x ∈ enclosure a S sym) ∧
    (∀ x, x ∈ enclosure a T sym → x ∈ enclosure a S sym) ∧
    (enclosure a S sym).Nodup := by
  refine ⟨?_, ?_, enclosure_nodup a sym S⟩
  · intro x
    constructor
    · intro hx
      rcases (mem_enclosure_iff a sym (enclosure a S sym) x).mp hx with
        ⟨t, ht, hr⟩
      rcases (mem_enclosure_iff a sym S t).mp ht with ⟨u, hu, hr2⟩
      exact (mem_enclosure_iff a sym S x).mpr ⟨u, hu, hr2.trans hr⟩
    · intro hx
      exact enclosure_contains a sym (enclosure a S sym) hx
  · intro x hx
    rcases (mem_enclosure_iff a sym T x).mp hx with ⟨t, ht, hr⟩
    exact (mem_enclosure_iff a sym S x).mpr ⟨t, hsub t ht, hr⟩

theorem c7_closure_algebra_witness :
    (∀ t, t ∈ ([2] : List Nat) → t ∈ ([0, 2] : List Nat)) ∧
    ((∀ x, x ∈ enclosure demoPlusEmptyBuild.arena
        (enclosure demoPlusEmptyBuild.arena [0, 2] "ϵ") "ϵ" ↔
      x ∈ enclosure demoPlusEmptyBuild.arena [0, 2] "ϵ") ∧
    (∀ x, x ∈ enclosure demoPlusEmptyBuild.arena [2] "ϵ" →
      x ∈ enclosure demoPlusEmptyBuild.arena [0, 2] "ϵ") ∧
    (enclosure demoPlusEmptyBuild.arena [0, 2] "ϵ").Nodup) := by
  have hsub : ∀ t, t ∈ ([2] : List Nat) → t ∈ ([0, 2] : List Nat) := by
    intro t ht
    rw [List.mem_singleton] at ht
    subst ht
    decide
  exact ⟨hsub, c7_closure_algebra demoPlusEmptyBuild.arena "ϵ" [0, 2] [2]
    hsub⟩

/-- C8: both traversals are total functions in this embedding, and on
any automaton — cyclic ones included — the export emits each visited
state's vertex descriptor exactly once (the vertex descriptors of the
output are exactly the duplicate-free visited list in order), emits the
traversed transitions exactly once each (the edge descriptors are a
permutation of one block per visited state's outgoing edges), and the
closure never returns duplicates. -/
theorem c8_cycle_safety (a : Arena) (initial : Nat) :
    (cytograph a initial).filter isVertex =
      (cgVisited a initial).map (vertexOf a) ∧
    (cgVisited a initial).Nodup ∧
    ((cytograph a initial).filter isEdge).Perm
      ((cgVisited a initial).flatMap (edgesOf a)) ∧
    ∀ (T : List Nat) (sym : String), (enclosure a T sym).Nodup := by
  obtain ⟨fresh, delta, h1, h2, h3, h4, h5, h6, h7⟩ :=
    cgState_ok a [] [] initial
  have hc : cytograph a initial = (cgState a [] [] initial).val.2 := by
    unfold cytograph
    exact List.append_nil _
  have hv : cgVisited a initial = (cgState a [] [] initial).val.1 := rfl
  rw [hc, hv, h1, h2]
  simp only [List.nil_append]
  refine ⟨h3, ?_, h4, fun T sym => enclosure_nodup a sym T⟩
  have h8 := h6 List.nodup_nil
  simpa using h8

theorem c4helper1 : (cgState demoTextBuild.arena [0]
    [Cyto.vertex 0 0, Cyto.edge 0 1 (some "a")] 1).val =
    ([0, 1], [Cyto.vertex 0 0, Cyto.edge 0 1 (some "a"),
      Cyto.vertex 1 1]) := by
  rw [cgState]
  rw [dif_neg (by decide : ¬ (1 : Nat) ∈ [0]),
    dif_pos (by decide : (1 : Nat) < demoTextBuild.arena.length)]
  show (cgEdges demoTextBuild.arena [0, 1]
    [Cyto.vertex 0 0, Cyto.edge 0 1 (some "a"), Cyto.vertex 1 1]
    1 []).val = ([0, 1], [Cyto.vertex 0 0, Cyto.edge 0 1 (some "a"),
      Cyto.vertex 1 1])
  rw [cgEdges]

theorem c4helper2 : (cgEdges demoTextBuild.arena [0] [Cyto.vertex 0 0] 0
    [⟨some "a", 1⟩]).val =
    ([0, 1], [Cyto.vertex 0 0, Cyto.edge 0 1 (some "a"),
      Cyto.vertex 1 1]) := by
  rw [cgEdges]
  show (cgEdges demoTextBuild.arena
    (cgState demoTextBuild.arena [0]
      [Cyto.vertex 0 0, Cyto.edge 0 1 (some "a")] 1).val.1
    (cgState demoTextBuild.arena [0]
      [Cyto.vertex 0 0, Cyto.edge 0 1 (some "a")] 1).val.2
    0 []).val = ([0, 1], [Cyto.vertex 0 0, Cyto.edge 0 1 (some "a"),
      Cyto.vertex 1 1])
  rw [c4helper1]
  rw [cgEdges]

theorem c4helper3 : (cgState demoTextBuild.arena [] [] 0).val =
    ([0, 1], [Cyto.vertex 0 0, Cyto.edge 0 1 (some "a"),
      Cyto.vertex 1 1]) := by
  rw [cgState]
  rw [dif_neg (by decide : ¬ (0 : Nat) ∈ ([] : List Nat)),
    dif_pos (by decide : (0 : Nat) < demoTextBuild.arena.length)]
  show (cgEdges demoTextBuild.arena [0] [Cyto.vertex 0 0] 0
    [⟨some "a", 1⟩]).val =
    ([0, 1], [Cyto.vertex 0 0, Cyto.edge 0 1 (some "a"),
      Cyto.vertex 1 1])
  exact c4helper2

/-- C4: the export of the automaton for `text("a")` delivers the edge
descriptor between the two vertex descriptors: because the code pushes
edge descriptors onto the `states` list while its `edges` list stays
empty, the output is not a vertex block followed by an edge block, and
no split of the output into vertices-then-edges exists. -/
theorem c4_export_interleaves :
    (cytograph demoTextBuild.arena 0 =
      [Cyto.vertex 0 0, Cyto.edge 0 1 (some "a"), Cyto.vertex 1 1]) ∧
    ¬ ∃ vs es : List Cyto, (∀ c, c ∈ vs → isVertex c = true) ∧
      (∀ c, c ∈ es → isEdge c = true) ∧
      cytograph demoTextBuild.arena 0 = vs ++ es := by
  have h1 : cytograph demoTextBuild.arena 0 =
      [Cyto.vertex 0 0, Cyto.edge 0 1 (some "a"), Cyto.vertex 1 1] := by
    show (cgState demoTextBuild.arena [] [] 0).val.2 ++
      ([] : List Cyto) = _
    rw [c4helper3, List.append_nil]
  refine ⟨h1, ?_⟩
  rintro ⟨vs, es, hvs, hes, heq⟩
  rw [h1] at heq
  cases vs with
  | nil =>
    have hm : Cyto.vertex 0 0 ∈ es := by
      rw [List.nil_append] at heq
      rw [← heq]
      exact List.mem_cons_self _ _
    have h2 := hes _ hm
    simp [isEdge] at h2
  | cons a1 vs1 =>
    cases vs1 with
    | nil =>
      injection heq with h2 h3
      have h3b : [Cyto.edge 0 1 (some "a"), Cyto.vertex 1 1] = es := h3
      have hm : Cyto.vertex 1 1 ∈ es := by
        rw [← h3b]
        exact List.mem_cons_of_mem _ (List.mem_cons_self _ _)
      have h4 := hes _ hm
      simp [isEdge] at h4
    | cons a2 vs2 =>
      injection heq with h2 h3
      injection h3 with h4 h5
      have hm : a2 ∈ (a1 :: a2 :: vs2) :=
        List.mem_cons_of_mem _ (List.mem_cons_self _ _)
      have h6 := hvs _ hm
      rw [← h4] at h6
      simp [isVertex] at h6

/-- `NFA.enclosure` with the heap threaded through explicitly: each step
reads the arena from the running pair and hands it on, so any mutation
of the `State` objects during the traversal would surface in the second
component. -/
def enclosureH (a : Arena) (T : List Nat) (symbol : String) :
    List Nat × Arena :=
  T.foldl (fun p st => ((dfsState p.2 symbol p.1 st).val, p.2)) ([], a)

/-- `Automaton.cytograph` with the heap threaded through explicitly. -/
def cytographH (a : Arena) (initial : Nat) : List Cyto × Arena :=
  ((cgState a [] [] initial).val.2 ++ ([] : List Cyto), a)

theorem enclosureH_spec (a : Arena) (symbol : String) :
    ∀ (T : List Nat) (v : List Nat),
      T.foldl (fun p st => ((dfsState p.2 symbol p.1 st).val, p.2))
        (v, a) =
      (T.foldl (fun v2 st => (dfsState a symbol v2 st).val) v, a) := by
  intro T
  induction T with
  | nil => intro v; rfl
  | cons t rest ih =>
    intro v
    rw [List.foldl_cons, List.foldl_cons]
    exact ih ((dfsState a symbol v t).val)

/-- C10: the closure and the export are read-only.  Running either with
the heap threaded through returns the arena unchanged — every state's
label and every state's transition list after the run are what they
were before — and the computed result is exactly that of the heap-free
operation. -/
theorem c10_read_only (a : Arena) (T : List Nat) (symbol : String)
    (initial : Nat) :
    (enclosureH a T symbol).2 = a ∧
    (∀ j, labelAt (enclosureH a T symbol).2 j = labelAt a j ∧
      nextAt (enclosureH a T symbol).2 j = nextAt a j) ∧
    (enclosureH a T symbol).1 = enclosure a T symbol ∧
    (cytographH a initial).2 = a ∧
    (∀ j, labelAt (cytographH a initial).2 j = labelAt a j ∧
      nextAt (cytographH a initial).2 j = nextAt a j) ∧
    (cytographH a initial).1 = cytograph a initial := by
  have h := enclosureH_spec a symbol T []
  have h2 : enclosureH a T symbol = (enclosure a T symbol, a) := h
  rw [h2]
  exact ⟨rfl, fun j => ⟨rfl, rfl⟩, rfl, rfl, fun j => ⟨rfl, rfl⟩, rfl⟩
